import Mathlib

/-!
Shallow embedding of `xword_gen.py` (crossword puzzle generator) and
verification of the specification claims about it.

Modelling conventions:
* Python strings are `List Char`; the blank sentinel is the space character.
* The grid is a `List (List Char)`, indexed `grid[row][col]` like the source.
* Rows, columns and letter offsets are `Nat` (they originate in `range(...)`
  loops); every Python test on a possibly-negative difference such as
  `col - letter_idx < 0` is embedded with an explicit cast to `Int` so that
  the arithmetic agrees with Python's unbounded integers.
* `random.choice(['V','H'])` and `random.randint(0, size - 1)` are modelled
  by an explicit stream of draws `rng : Nat → Dir × Nat`, one pair per
  generation attempt; the position draw is reduced `% size`, which ranges
  over exactly the values `randint(0, size - 1)` can produce.
* Python list indexing that can raise `IndexError` on the inputs a claim
  covers (only `wordlist_sorted[0]` in `generate`) is modelled with
  `Except PyErr`.  All grid accesses are proven to stay inside
  `[0, size)` (claim C8), so the grid read is modelled as a total function
  whose out-of-bounds default is never consulted in reachable executions.
-/

namespace XwordGen

/-- A Python string, as a list of characters. -/
abbrev Str := List Char

/-- The square letter grid: a list of rows, each a list of characters. -/
abbrev Grid := List (List Char)

/-- The two placement directions, the Python string constants 'H' and 'V'. -/
inductive Dir where
| H : Dir
| V : Dir
deriving DecidableEq, Repr

/-- A recorded placement: the word, its anchor `(row, col)` (top-left-most
cell), and its direction — the value `[word, (row, col), dir]` the source
stores in the placements dict. -/
abbrev Placement := Str × (Nat × Nat) × Dir

/-- Placements dict `{word number : placement}`, insertion ordered. -/
abbrev Placements := List (Nat × Placement)

/-- Candidate grids dict `{blank count : (grid, placements)}`. -/
abbrev Candidates := List (Nat × (Grid × Placements))

/-- The one Python exception the embedding can observe:
`wordlist_sorted[0]` on an empty word list. -/
inductive PyErr where
| indexError : PyErr
deriving DecidableEq, Repr

/-- The stream of pseudo-random draws: attempt `i` draws `rng i` =
(direction choice, position draw) for `place_first`. -/
abbrev Rng := Nat → Dir × Nat

/-- Out-of-bounds read default.  Claim C8 proves every grid access of the
program stays in bounds, so this value is never consulted in any execution
the theorems talk about. -/
def oobChar : Char := '!'

/-- `grid[row][col]` (a read; both indices in `[0, size)` in all reachable
calls, see the C8 access theorems). -/
def cell (g : Grid) (row col : Nat) : Char :=
  ((g.get? row).bind fun r => r.get? col).getD oobChar

/-- `grid[row][col] = ch` (`List.set` is the identity out of bounds; all
reachable writes are in bounds, see C8). -/
def setCell (g : Grid) (row col : Nat) (ch : Char) : Grid :=
  g.set row ((g.getD row []).set col ch)

/-- `init_grid(size)`: an empty `size × size` grid of blanks
(source lines 27-31). -/
def init_grid (size : Nat) : Grid :=
  List.replicate size (List.replicate size ' ')

/-- `len(max(wordlist_sorted, key=len))`: the length of a longest word.
Python raises on an empty list; every reachable call site passes the
non-empty sorted word list, where this fold agrees with Python. -/
def maxWordLen (wl : List Str) : Nat :=
  wl.foldl (fun m w => max m w.length) 0

/-- Python dict insertion `d[k] = v`: overwrite in place if the key exists,
else append (insertion order preserved). -/
def pyDictInsert {α : Type} (d : List (Nat × α)) (k : Nat) (v : α) :
    List (Nat × α) :=
  if d.any (fun p => p.1 == k) then
    d.map (fun p => if p.1 == k then (k, v) else p)
  else d ++ [(k, v)]

/-! ### Adjacency checker (`is_adjacent_word`, source lines 237-320)

The two bounded scan loops `for i in range(1, max_len)` walk outward from
the detected letter, breaking at the first blank or the grid edge, and
build up the candidate run string.  They are embedded as structural
recursion over the list `range' 1 (max_len - 1)` of offsets. -/

/-- The "look up" loop of the vertical case (lines 253-262): prepend
letters above `(row, col)` until a blank, the edge, or the bound.
`i ≤ row` embeds Python's `row - i >= 0`. -/
def lookUp (g : Grid) (row col : Nat) : List Nat → Str → Str
| [], w => w
| i :: rest, w =>
  if i ≤ row then
    if cell g (row - i) col = ' ' then w
    else lookUp g row col rest (cell g (row - i) col :: w)
  else w

/-- The "look down" loop of the vertical case (lines 265-274): append
letters below `(row, col)`.  The dead disjunct `row + i == len(grid)`
of line 269 is kept (it is unreachable under the guard `row + i < len`). -/
def lookDown (g : Grid) (row col : Nat) : List Nat → Str → Str
| [], w => w
| i :: rest, w =>
  if row + i < g.length then
    if cell g (row + i) col = ' ' ∨ row + i = g.length then w
    else lookDown g row col rest (w ++ [cell g (row + i) col])
  else w

/-- The "look up" (leftward) loop of the horizontal case (lines 291-300). -/
def lookLeft (g : Grid) (row col : Nat) : List Nat → Str → Str
| [], w => w
| i :: rest, w =>
  if i ≤ col then
    if cell g row (col - i) = ' ' then w
    else lookLeft g row col rest (cell g row (col - i) :: w)
  else w

/-- The "look down" (rightward) loop of the horizontal case
(lines 303-312); note the source bounds columns by `len(grid)` (the grid
is square). -/
def lookRight (g : Grid) (row col : Nat) : List Nat → Str → Str
| [], w => w
| i :: rest, w =>
  if col + i < g.length then
    if cell g row (col + i) = ' ' ∨ col + i = g.length then w
    else lookRight g row col rest (w ++ [cell g row (col + i)])
  else w

/-- The run string `is_adjacent_word` builds before its membership test:
start from `grid[row][col]`, extend backward then forward, each side
bounded by `max_len - 1` steps (`range(1, max_len)`). -/
def adjRun (g : Grid) (row col : Nat) (direction : Dir) (wl : List Str) :
    Str :=
  let max_len := maxWordLen wl
  let offs := List.range' 1 (max_len - 1)
  match direction with
  | Dir.V => lookDown g row col offs (lookUp g row col offs [cell g row col])
  | Dir.H => lookRight g row col offs (lookLeft g row col offs [cell g row col])

/-- `is_adjacent_word(grid, row, col, direction, wordlist_sorted)`
(source lines 237-320): does the run of letters through `(row, col)`,
perpendicular to a pending placement, spell a word of the list?
The outward scan is bounded by the longest word's length. -/
def is_adjacent_word (g : Grid) (row col : Nat) (direction : Dir)
    (wl : List Str) : Bool :=
  wl.contains (adjRun g row col direction wl)

/-! ### Placement validator (`is_valid_placement`, source lines 139-234) -/

/-- The "row below" check of the horizontal per-letter loop
(lines 186-190): if the cell below offset `i` is a letter (and `i` is not
the anchor), it must close a legal vertical word — then it counts as one
more overlap — otherwise the placement is rejected. -/
def ivpBelowH (g : Grid) (w : Str) (letter_idx row start : Nat)
    (wl : List Str) (acc i : Nat) : Option Nat :=
  if row < g.length - 1 ∧ cell g (row + 1) (start + i) ≠ ' ' ∧
      i ≠ letter_idx then
    if is_adjacent_word g (row + 1) (start + i) Dir.V wl then some (acc + 1)
    else none
  else some acc

/-- One iteration of the per-letter loop of the horizontal case
(lines 168-190), for letter offset `i` with running overlap count `acc`;
`start = col - letter_idx` is the word's first column.  Returns `none` for
the `return False` exits, `some` of the updated count otherwise: the
collision check, the overlap count, the "row above" check, then the
"row below" check. -/
def ivpStepH (g : Grid) (w : Str) (letter_idx row start : Nat)
    (wl : List Str) (acc i : Nat) : Option Nat :=
  let c := cell g row (start + i)
  if ¬(c = ' ' ∨ c = w.getD i ' ') then none
  else
  let acc1 := if c = w.getD i ' ' then acc + 1 else acc
  if 0 < row ∧ cell g (row - 1) (start + i) ≠ ' ' ∧ i ≠ letter_idx then
    if is_adjacent_word g (row - 1) (start + i) Dir.V wl then
      ivpBelowH g w letter_idx row start wl (acc1 + 1) i
    else none
  else ivpBelowH g w letter_idx row start wl acc1 i

/-- The "column to the right" check of the vertical per-letter loop
(lines 226-230). -/
def ivpRightV (g : Grid) (w : Str) (letter_idx col start : Nat)
    (wl : List Str) (acc i : Nat) : Option Nat :=
  if col < g.length - 1 ∧ cell g (start + i) (col + 1) ≠ ' ' ∧
      i ≠ letter_idx then
    if is_adjacent_word g (start + i) (col + 1) Dir.H wl then some (acc + 1)
    else none
  else some acc

/-- One iteration of the per-letter loop of the vertical case
(lines 208-230); `start = row - letter_idx` is the word's first row: the
collision check, the overlap count, the "column to the left" check, then
the "column to the right" check. -/
def ivpStepV (g : Grid) (w : Str) (letter_idx col start : Nat)
    (wl : List Str) (acc i : Nat) : Option Nat :=
  let c := cell g (start + i) col
  if ¬(c = ' ' ∨ c = w.getD i ' ') then none
  else
  let acc1 := if c = w.getD i ' ' then acc + 1 else acc
  if 0 < col ∧ cell g (start + i) (col - 1) ≠ ' ' ∧ i ≠ letter_idx then
    if is_adjacent_word g (start + i) (col - 1) Dir.H wl then
      ivpRightV g w letter_idx col start wl (acc1 + 1) i
    else none
  else ivpRightV g w letter_idx col start wl acc1 i

/-- The per-letter loop: thread the overlap count through the step
function, stopping at the first `return False`. -/
def ivpLoop (step : Nat → Nat → Option Nat) (acc : Nat) :
    List Nat → Option Nat
| [] => some acc
| i :: rest =>
  match step acc i with
  | none => none
  | some acc2 => ivpLoop step acc2 rest

/-- `is_valid_placement(grid, word, letter_idx, row, col, direction,
wordlist_sorted)` (source lines 139-234).  `none` embeds `return False`,
`some n` embeds `return True, num_overlaps`. -/
def is_valid_placement (g : Grid) (w : Str) (letter_idx row col : Nat)
    (direction : Dir) (wl : List Str) : Option Nat :=
  let size := g.length
  match direction with
  | Dir.H =>
    -- left and right bound (line 156), Python integer arithmetic
    if (col : Int) - letter_idx < 0 ∨
        (col : Int) - letter_idx + w.length > size then none
    else
    -- from here on col ≥ letter_idx, so Nat subtraction agrees with Python
    let start := col - letter_idx
    -- border before the word (line 160)
    if 0 < start ∧ cell g row (start - 1) ≠ ' ' then none
    else
    -- border after the word (line 164)
    if start + w.length < size ∧ cell g row (start + w.length) ≠ ' ' then none
    else
    ivpLoop (ivpStepH g w letter_idx row start wl) 0 (List.range w.length)
  | Dir.V =>
    -- upper and lower bound (line 196)
    if (row : Int) - letter_idx < 0 ∨
        (row : Int) - letter_idx + w.length > size then none
    else
    let start := row - letter_idx
    -- border before the word (line 200)
    if 0 < start ∧ cell g (start - 1) col ≠ ' ' then none
    else
    -- border after the word (line 204)
    if start + w.length < size ∧ cell g (start + w.length) col ≠ ' ' then none
    else
    ivpLoop (ivpStepV g w letter_idx col start wl) 0 (List.range w.length)

/-! ### Placement search (`find_best_placement`, source lines 96-136) -/

/-- Search state: `(best_score, best_position)`; `best_score` starts at
`-1` so it is an `Int`. -/
abbrev FbpState := Int × Option (Nat × Nat × Nat × Dir)

/-- Handle one direction at a matched cell (the `h_valid` / `v_valid`
blocks, lines 120-129): a valid placement replaces the best on
`score >= best_score`. -/
def fbpConsider (g : Grid) (w : Str) (wl : List Str)
    (i row col : Nat) (d : Dir) (st : FbpState) : FbpState :=
  match is_valid_placement g w i row col d wl with
  | some score =>
    if (score : Int) ≥ st.1 then ((score : Int), some (row, col, i, d))
    else st
  | none => st

/-- The body at one grid cell: proceed only if the letter matches
(line 117), then try 'H' then 'V'. -/
def fbpCell (g : Grid) (w : Str) (wl : List Str)
    (i row col : Nat) (st : FbpState) : FbpState :=
  if w.getD i ' ' = cell g row col then
    fbpConsider g w wl i row col Dir.V (fbpConsider g w wl i row col Dir.H st)
  else st

/-- `find_best_placement(word, grid, wordlist_sorted)` (lines 96-136):
loop over each letter offset, then each cell row-major; return the
tracked best position, or `none` embedding the
`(False, False, False, False)` failure tuple. -/
def find_best_placement (w : Str) (g : Grid) (wl : List Str) :
    Option (Nat × Nat × Nat × Dir) :=
  let size := g.length
  let res := (List.range w.length).foldl (fun st i =>
    (List.range size).foldl (fun st row =>
      (List.range size).foldl (fun st col =>
        fbpCell g w wl i row col st) st) st) ((-1 : Int), none)
  res.2

/-! ### Placing words (`place_word`, `place_first`, `build_crossword`) -/

/-- `place_word(grid, word, letter_idx, row, col, direction, placements,
wordnum)` (source lines 79-93).  Every call site has
`letter_idx ≤ col` ('H') resp. `letter_idx ≤ row` ('V') — `place_first`
passes `letter_idx = 0` and `find_best_placement` only returns
bounds-validated positions — so the Nat subtractions agree with Python. -/
def place_word (g : Grid) (w : Str) (letter_idx row col : Nat)
    (direction : Dir) (placements : Placements) (wordnum : Nat) :
    Grid × Placements :=
  match direction with
  | Dir.H =>
    let pl := pyDictInsert placements wordnum (w, (row, col - letter_idx), Dir.H)
    let g := (List.range w.length).foldl
      (fun g i => setCell g row (col - letter_idx + i) (w.getD i ' ')) g
    (g, pl)
  | Dir.V =>
    let pl := pyDictInsert placements wordnum (w, (row - letter_idx, col), Dir.V)
    let g := (List.range w.length).foldl
      (fun g i => setCell g (row - letter_idx + i) col (w.getD i ' ')) g
    (g, pl)

/-- `place_first(grid, first, placements)` (source lines 61-76): place the
first word at a random row (if 'H') or column (if 'V') starting at offset
0.  `choice` holds the attempt's two random draws; the position draw is
taken `% size`, the range of `randint(0, size - 1)`. -/
def place_first (g : Grid) (first : Str) (placements : Placements)
    (choice : Dir × Nat) : Grid × Placements :=
  let size := g.length
  match choice.1 with
  | Dir.H => place_word g first 0 (choice.2 % size) 0 Dir.H placements 1
  | Dir.V => place_word g first 0 0 (choice.2 % size) Dir.V placements 1

/-- Line 54's Python truthiness test
`if row or col or letter_idx or direction:` on the tuple returned by a
successful search: `direction` is the non-empty string 'H' or 'V', which
is always truthy. -/
def posTruthy (row col letter_idx : Nat) (d : Dir) : Bool :=
  row != 0 || col != 0 || letter_idx != 0 ||
    (match d with | Dir.H => true | Dir.V => true)

/-- The loop body of `build_crossword` (lines 49-55) for word number
`i` (0-based in the remaining words): find the best placement and apply
it; the failure tuple (embedded as `none`) is skipped. -/
def buildStep (wl : List Str) (st : Grid × Placements) (iw : Nat × Str) :
    Grid × Placements :=
  match find_best_placement iw.2 st.1 wl with
  | some (row, col, letter_idx, d) =>
    if posTruthy row col letter_idx d then
      place_word st.1 iw.2 letter_idx row col d st.2 (iw.1 + 2)
    else st
  | none => st

/-- `build_crossword(grid, wordlist_sorted)` (source lines 34-58).
The `[]` branch is unreachable: Python would raise `IndexError` at
`wordlist_sorted[0]`, and `generate` raises on an empty list before ever
calling `build_crossword` (see `generate`). -/
def build_crossword (g : Grid) (wl : List Str) (choice : Dir × Nat) :
    Grid × Placements :=
  match wl with
  | [] => (g, [])
  | first :: rest =>
    let st := place_first g first [] choice
    (rest.enum).foldl (buildStep wl) st

/-! ### Generation driver (`count_blanks`, `generate`, lines 331-388) -/

/-- `count_blanks(grid)` (lines 331-340); note the source ranges both
loops over `len(grid)` (the grid is square). -/
def count_blanks (g : Grid) : Nat :=
  (List.range g.length).foldl (fun count row =>
    (List.range g.length).foldl (fun count col =>
      if cell g row col = ' ' then count + 1 else count) count) 0

/-- Insert a word into a length-descending sorted list, before any word of
equal length that occurred later in the input (stability). -/
def insertByLenDesc (w : Str) : List Str → List Str
| [] => [w]
| x :: xs =>
  if x.length ≤ w.length then w :: x :: xs else x :: insertByLenDesc w xs

/-- `sorted(wordlist, key=len, reverse=True)` (line 354): the stable sort
by length, descending. -/
def sortWords (wl : List Str) : List Str :=
  wl.foldr insertByLenDesc []

/-- One iteration of `generate`'s attempt loop (lines 362-372), acting on
the state (candidate dict, current grid size):  build a crossword on a
fresh grid; record it if complete; otherwise escalate the grid size on
every 5th attempt index. -/
def genStep (swl : List Str) (rng : Rng) (st : Candidates × Nat) (i : Nat) :
    Candidates × Nat :=
  let g := init_grid st.2
  let (crossword, placements) := build_crossword g swl (rng i)
  if placements.length = swl.length then
    (pyDictInsert st.1 (count_blanks crossword) (crossword, placements), st.2)
  else
    if i % 5 = 0 then (st.1, st.2 + 1) else (st.1, st.2)

/-- The first `n` iterations of the attempt loop, from initial grid size
`sz0` and an empty candidate dict. -/
def genLoop (swl : List Str) (rng : Rng) (sz0 n : Nat) : Candidates × Nat :=
  (List.range n).foldl (genStep swl rng) ([], sz0)

/-- The grid size in force when attempt `i` starts (`grid_size` at the top
of loop iteration `i`). -/
def sizeAt (swl : List Str) (rng : Rng) (sz0 i : Nat) : Nat :=
  (genLoop swl rng sz0 i).2

/-- `sorted(candidate_grids.keys())[0]` followed by the dict lookup
(line 376): the entry at the minimum key, `none` if the dict is empty. -/
def selectMin {α : Type} (d : List (Nat × α)) : Option α :=
  match (d.map Prod.fst).min? with
  | none => none
  | some k => (d.find? (fun p => p.1 == k)).map Prod.snd

/-- The attempt loop and final selection of `generate` (lines 360-379),
from the sorted word list and initial grid size. -/
def generateFrom (swl : List Str) (rng : Rng) (sz0 : Nat) :
    Except PyErr (Option (Grid × Placements)) :=
  match selectMin (genLoop swl rng sz0 100).1 with
  | some (crossword, placements) => .ok (some (crossword, placements))
  | none => .ok none

/-- `generate(wordlist)` (source lines 343-388).  Outcomes:
`.error .indexError` embeds the `IndexError` Python raises at
`wordlist_sorted[0]` (line 357) on an empty list; `.ok none` embeds the
bare `return` (None) of the failure branch (line 379);
`.ok (some (grid, placements))` is a successful generation.
(`verbose` only prints; it is omitted.) -/
def generate (wordlist : List Str) (rng : Rng) :
    Except PyErr (Option (Grid × Placements)) :=
  let wordlist_sorted := sortWords wordlist
  match wordlist_sorted with
  | [] => .error .indexError
  | w0 :: _ => generateFrom wordlist_sorted rng w0.length

/-! ## Derived definitions used by the claim statements -/

/-- Convert a string literal to the `List Char` word representation. -/
def s2l (s : String) : Str := s.data

/-- The rows of a grid, read cell by cell. -/
def rowsOf (g : Grid) : List Str :=
  (List.range g.length).map (fun r => (List.range g.length).map (fun c => cell g r c))

/-- The columns of a grid, read cell by cell. -/
def colsOf (g : Grid) : List Str :=
  (List.range g.length).map (fun c => (List.range g.length).map (fun r => cell g r c))

/-- The maximal contiguous non-blank runs of one grid line. -/
def lineRuns (l : Str) : List Str :=
  (l.splitOn ' ').filter (fun r => r ≠ [])

/-- The no-orphan-run property of claim C1: every maximal non-blank run of
length ≥ 2, in every row and column, is one of the given words. -/
def noOrphanRuns (g : Grid) (wl : List Str) : Bool :=
  (rowsOf g ++ colsOf g).all (fun line =>
    (lineRuns line).all (fun r => r.length < 2 || wl.contains r))

/-- Read a placement's word back off the grid: `len(word)` consecutive
cells starting at the anchor, in the placement's direction. -/
def readWord (g : Grid) (p : Placement) : Str :=
  match p with
  | (w, (r, c), Dir.H) => (List.range w.length).map (fun i => cell g r (c + i))
  | (w, (r, c), Dir.V) => (List.range w.length).map (fun i => cell g (r + i) c)

/-- The grid size in force when attempt `i` of `generate wordlist` starts
(0 for the empty list, on which `generate` raises before the loop). -/
def gridSizeAt (wordlist : List Str) (rng : Rng) (i : Nat) : Nat :=
  match sortWords wordlist with
  | [] => 0
  | w0 :: _ => sizeAt (sortWords wordlist) rng w0.length i

/-- Whether attempt `i` of `generate wordlist` places every word
(the condition of line 367). -/
def attemptComplete (wordlist : List Str) (rng : Rng) (i : Nat) : Bool :=
  let swl := sortWords wordlist
  (build_crossword (init_grid (gridSizeAt wordlist rng i)) swl (rng i)).2.length
    = swl.length

/-- The Candidate Grids recorded during the first `n` attempts, in order:
the `(blank count, (grid, placements))` pairs of the complete attempts
(including ones a later equal-key insertion overwrites in the dict). -/
def recordedAux (swl : List Str) (rng : Rng) (sz0 n : Nat) :
    List (Nat × (Grid × Placements)) :=
  (List.range n).foldl (fun acc i =>
    let res := build_crossword (init_grid (sizeAt swl rng sz0 i)) swl (rng i)
    if res.2.length = swl.length then
      acc ++ [(count_blanks res.1, res)]
    else acc) []

/-- Every Candidate Grid recorded during one `generate` call. -/
def recordedGrids (wordlist : List Str) (rng : Rng) :
    List (Nat × (Grid × Placements)) :=
  match sortWords wordlist with
  | [] => []
  | w0 :: _ => recordedAux (sortWords wordlist) rng w0.length 100

/-! ## Concrete instances used by counterexamples and witnesses -/

/-- The word list of the C1 failing input. -/
def c1Input : List Str := [s2l "abcdef", s2l "cpq", s2l "qrs", s2l "fgh"]

/-- A possible random trace: every attempt places the first word
vertically in column 0. -/
def c1Rng : Rng := fun _ => (Dir.V, 0)

/-- The grid `generate c1Input c1Rng` returns (column 2 holds the orphan
run "qrsh"). -/
def c1Grid : Grid :=
  [s2l "a     ", s2l "b     ", s2l "cpq   ",
   s2l "d r   ", s2l "e s   ", s2l "fgh   "]

/-- The placement map `generate c1Input c1Rng` returns. -/
def c1Placements : Placements :=
  [(1, (s2l "abcdef", (0, 0), Dir.V)), (2, (s2l "cpq", (2, 0), Dir.H)),
   (3, (s2l "qrs", (2, 2), Dir.V)), (4, (s2l "fgh", (5, 0), Dir.H))]

/-- The attempt-loop state reached after attempt 0 on `c1Input` (a fixed
point of every later attempt under `c1Rng`). -/
def c1S1 : Candidates × Nat := ([(24, (c1Grid, c1Placements))], 6)

/-- A random trace placing the first word horizontally in row 0. -/
def constRngH : Rng := fun _ => (Dir.H, 0)

/-- The one-word list of the "ab" scenario. -/
def abInput : List Str := [s2l "ab"]

/-- The grid `generate abInput constRngH` returns. -/
def abGrid : Grid := [s2l "ab", s2l "  "]

/-- The placement map `generate abInput constRngH` returns. -/
def abPlacements : Placements := [(1, (s2l "ab", (0, 0), Dir.H))]

/-- The attempt-loop state after attempt 0 on `abInput` (a fixed point of
every later attempt under `constRngH`). -/
def abS1 : Candidates × Nat := ([(2, (abGrid, abPlacements))], 2)

/-- The adjacency scan backward direction ("look up" for 'V', leftward
for 'H') hits neither a blank cell nor the grid edge within the scan
bound `range(1, max_len)`: claim C4's premise. -/
def reachesBound (g : Grid) (wl : List Str) (row col : Nat) (d : Dir) :
    Prop :=
  match d with
  | Dir.V => ∀ i < maxWordLen wl, 1 ≤ i → i ≤ row ∧ cell g (row - i) col ≠ ' '
  | Dir.H => ∀ i < maxWordLen wl, 1 ≤ i → i ≤ col ∧ cell g row (col - i) ≠ ' '

/-- The run also continues on the forward side of the scanned cell
(below for 'V', to the right for 'H'). -/
def runExtendsAhead (g : Grid) (row col : Nat) (d : Dir) : Prop :=
  match d with
  | Dir.V => row + 1 < g.length ∧ cell g (row + 1) col ≠ ' '
  | Dir.H => col + 1 < g.length ∧ cell g row (col + 1) ≠ ' '

instance (g : Grid) (wl : List Str) (row col : Nat) (d : Dir) :
    Decidable (reachesBound g wl row col d) :=
  match d with
  | Dir.V => inferInstanceAs (Decidable (∀ i < maxWordLen wl, 1 ≤ i →
      i ≤ row ∧ cell g (row - i) col ≠ ' '))
  | Dir.H => inferInstanceAs (Decidable (∀ i < maxWordLen wl, 1 ≤ i →
      i ≤ col ∧ cell g row (col - i) ≠ ' '))

instance (g : Grid) (row col : Nat) (d : Dir) :
    Decidable (runExtendsAhead g row col d) :=
  match d with
  | Dir.V => inferInstanceAs (Decidable (_ ∧ _))
  | Dir.H => inferInstanceAs (Decidable (_ ∧ _))

/-- C4 counterexample word list. -/
def c4Wl : List Str := [s2l "abc"]

/-- C4 counterexample grid: column 0 holds the run "xabc" of length 4;
the scan from the bottom cell is truncated at the bound 3 to "abc". -/
def c4Grid : Grid := [s2l "x   ", s2l "a   ", s2l "b   ", s2l "c   "]

/-- C4 witness grid: column 0 holds "xyabz"; the scan from cell (2,0)
reaches the bound and the truncated run "xyab"/"xyabz" is not a word. -/
def c4WitGrid : Grid :=
  [s2l "x    ", s2l "y    ", s2l "a    ", s2l "b    ", s2l "z    "]

/-- The scan order of `find_best_placement`: letter offsets in the outer
loop, then rows, then columns, 'H' tried before 'V' at each cell. -/
def scanOrder (w : Str) (g : Grid) : List (Nat × Nat × Nat × Dir) :=
  (List.range w.length).flatMap (fun i =>
    (List.range g.length).flatMap (fun row =>
      (List.range g.length).flatMap (fun col =>
        [(row, col, i, Dir.H), (row, col, i, Dir.V)])))

/-- Whether the scan actually evaluates and accepts a candidate: the
anchor cell already holds the word's letter (line 117) and the validator
approves the placement. -/
def hitAt (w : Str) (g : Grid) (wl : List Str)
    (q : Nat × Nat × Nat × Dir) : Bool :=
  (w.getD q.2.2.1 ' ' == cell g q.1 q.2.1) &&
    (is_valid_placement g w q.2.2.1 q.1 q.2.1 q.2.2.2 wl).isSome

/-- The anchored valid placements, in scan order. -/
def validScans (w : Str) (g : Grid) (wl : List Str) :
    List (Nat × Nat × Nat × Dir) :=
  (scanOrder w g).filter (hitAt w g wl)

/-- The overlap score of a scanned candidate. -/
def scoreAt (w : Str) (g : Grid) (wl : List Str)
    (q : Nat × Nat × Nat × Dir) : Nat :=
  (is_valid_placement g w q.2.2.1 q.1 q.2.1 q.2.2.2 wl).getD 0

/-- The body of the placement scan for a single `(row, col, i, dir)`
candidate (one half of `fbpCell`). -/
def fbpFlat (g : Grid) (w : Str) (wl : List Str) (st : FbpState)
    (q : Nat × Nat × Nat × Dir) : FbpState :=
  if w.getD q.2.2.1 ' ' = cell g q.1 q.2.1 then
    fbpConsider g w wl q.2.2.1 q.1 q.2.1 q.2.2.2 st
  else st

/-- The abstract "last maximum wins" fold step: a hit whose score is ≥
the best seen replaces the best. -/
def lastStep {α : Type} (score : α → Nat) (hit : α → Bool)
    (st : Int × Option α) (q : α) : Int × Option α :=
  if hit q then
    if ((score q : Nat) : Int) ≥ st.1 then (((score q : Nat) : Int), some q)
    else st
  else st

/-- C7 counterexample word list. -/
def c7Wl : List Str := [s2l "a"]

/-- C7 counterexample grid: a single blank cell. -/
def c7Grid : Grid := [[' ']]

/-- A well-formed `n × n` grid: `n` rows of `n` cells. -/
def WellSized (g : Grid) (n : Nat) : Prop :=
  g.length = n ∧ ∀ row ∈ g, row.length = n

/-- The shape of the one grid-and-placements pair a complete single-word
attempt produces: a well-sized grid whose placement map holds exactly the
one word, anchored at column 0 of some row (horizontal) or row 0 of some
column (vertical), reading back exactly. -/
def singleGood (w : Str) (gp : Grid × Placements) : Prop :=
  WellSized gp.1 w.length ∧
  ∃ r c d, gp.2 = [(1, (w, (r, c), d))] ∧
    ((d = Dir.H ∧ c = 0 ∧ r < w.length) ∨
      (d = Dir.V ∧ r = 0 ∧ c < w.length)) ∧
    readWord gp.1 (w, (r, c), d) = w


/-- The build invariant behind claim C5: the grid is well-sized and every
entry of the placement map names a blank-free word that reads back off
the grid exactly. -/
def GoodPl (n : Nat) (gp : Grid × Placements) : Prop :=
  WellSized gp.1 n ∧
  ∀ e ∈ gp.2, ' ' ∉ e.2.1 ∧ readWord gp.1 e.2 = e.2.1


/-! ### Grid-access traces (claim C8)

Each definition below lists the `(row, col)` index pairs at which the
corresponding source function reads or writes a grid cell, mirroring its
control flow: an index is listed exactly when Python evaluates
`grid[row][col]` there (guards short-circuit, early `return False` stops
the trace).  The claim is that every listed pair is inside `[0, size)²`. -/

/-- Accesses of the "look up" scan (lines 253-262): `grid[row - i][col]`
is read only after the boundary check `row - i >= 0`. -/
def lookUpAcc (g : Grid) (row col : Nat) : List Nat → List (Nat × Nat)
| [] => []
| i :: rest =>
  if i ≤ row then
    if cell g (row - i) col = ' ' then [(row - i, col)]
    else (row - i, col) :: lookUpAcc g row col rest
  else []

/-- Accesses of the "look down" scan (lines 265-274). -/
def lookDownAcc (g : Grid) (row col : Nat) : List Nat → List (Nat × Nat)
| [] => []
| i :: rest =>
  if row + i < g.length then
    if cell g (row + i) col = ' ' ∨ row + i = g.length then [(row + i, col)]
    else (row + i, col) :: lookDownAcc g row col rest
  else []

/-- Accesses of the leftward scan (lines 291-300). -/
def lookLeftAcc (g : Grid) (row col : Nat) : List Nat → List (Nat × Nat)
| [] => []
| i :: rest =>
  if i ≤ col then
    if cell g row (col - i) = ' ' then [(row, col - i)]
    else (row, col - i) :: lookLeftAcc g row col rest
  else []

/-- Accesses of the rightward scan (lines 303-312). -/
def lookRightAcc (g : Grid) (row col : Nat) : List Nat → List (Nat × Nat)
| [] => []
| i :: rest =>
  if col + i < g.length then
    if cell g row (col + i) = ' ' ∨ col + i = g.length then [(row, col + i)]
    else (row, col + i) :: lookRightAcc g row col rest
  else []

/-- Accesses of `is_adjacent_word` (lines 237-320): the starting cell and
the two bounded outward scans. -/
def adjAcc (g : Grid) (row col : Nat) (direction : Dir) (wl : List Str) :
    List (Nat × Nat) :=
  let offs := List.range' 1 (maxWordLen wl - 1)
  (row, col) ::
  (match direction with
   | Dir.V => lookUpAcc g row col offs ++ lookDownAcc g row col offs
   | Dir.H => lookLeftAcc g row col offs ++ lookRightAcc g row col offs)

/-- Accesses of the "row below" check of the horizontal validator loop
(lines 186-190): `grid[row + 1][start + i]` is read only under the guard
`row < len(grid) - 1`, and the adjacency checker runs only when the full
condition holds. -/
def ivpBelowHAcc (g : Grid) (w : Str) (letter_idx row start : Nat)
    (wl : List Str) (i : Nat) : List (Nat × Nat) :=
  (if row < g.length - 1 then [(row + 1, start + i)] else []) ++
  (if row < g.length - 1 ∧ cell g (row + 1) (start + i) ≠ ' ' ∧
      i ≠ letter_idx then
    adjAcc g (row + 1) (start + i) Dir.V wl
  else [])

/-- Accesses of one iteration of the horizontal validator loop
(lines 168-190): the collision read, then the guarded "row above" read
and its adjacency check (stopping on failure), then the "row below"
check. -/
def ivpStepHAcc (g : Grid) (w : Str) (letter_idx row start : Nat)
    (wl : List Str) (i : Nat) : List (Nat × Nat) :=
  (row, start + i) ::
  (if ¬(cell g row (start + i) = ' ' ∨ cell g row (start + i) = w.getD i ' ')
   then []
   else
     (if 0 < row then [(row - 1, start + i)] else []) ++
     (if 0 < row ∧ cell g (row - 1) (start + i) ≠ ' ' ∧ i ≠ letter_idx then
        adjAcc g (row - 1) (start + i) Dir.V wl ++
        (if is_adjacent_word g (row - 1) (start + i) Dir.V wl then
           ivpBelowHAcc g w letter_idx row start wl i
         else [])
      else ivpBelowHAcc g w letter_idx row start wl i))

/-- Accesses of the "column to the right" check of the vertical validator
loop (lines 226-230). -/
def ivpRightVAcc (g : Grid) (w : Str) (letter_idx col start : Nat)
    (wl : List Str) (i : Nat) : List (Nat × Nat) :=
  (if col < g.length - 1 then [(start + i, col + 1)] else []) ++
  (if col < g.length - 1 ∧ cell g (start + i) (col + 1) ≠ ' ' ∧
      i ≠ letter_idx then
    adjAcc g (start + i) (col + 1) Dir.H wl
  else [])

/-- Accesses of one iteration of the vertical validator loop
(lines 208-230). -/
def ivpStepVAcc (g : Grid) (w : Str) (letter_idx col start : Nat)
    (wl : List Str) (i : Nat) : List (Nat × Nat) :=
  (start + i, col) ::
  (if ¬(cell g (start + i) col = ' ' ∨ cell g (start + i) col = w.getD i ' ')
   then []
   else
     (if 0 < col then [(start + i, col - 1)] else []) ++
     (if 0 < col ∧ cell g (start + i) (col - 1) ≠ ' ' ∧ i ≠ letter_idx then
        adjAcc g (start + i) (col - 1) Dir.H wl ++
        (if is_adjacent_word g (start + i) (col - 1) Dir.H wl then
           ivpRightVAcc g w letter_idx col start wl i
         else [])
      else ivpRightVAcc g w letter_idx col start wl i))

/-- Accesses of the per-letter loop: each iteration's accesses, stopping
after the first iteration whose step fails (`return False`). -/
def ivpLoopAcc (step : Nat → Nat → Option Nat)
    (stepAcc : Nat → List (Nat × Nat)) (acc : Nat) :
    List Nat → List (Nat × Nat)
| [] => []
| i :: rest =>
  stepAcc i ++
  match step acc i with
  | none => []
  | some acc2 => ivpLoopAcc step stepAcc acc2 rest

/-- Accesses of `is_valid_placement` (lines 139-234): nothing when the
bounds check rejects, then the guarded border reads (each stopping the
trace on rejection), then the per-letter loop. -/
def ivpAcc (g : Grid) (w : Str) (letter_idx row col : Nat)
    (direction : Dir) (wl : List Str) : List (Nat × Nat) :=
  match direction with
  | Dir.H =>
    if (col : Int) - letter_idx < 0 ∨
        (col : Int) - letter_idx + w.length > g.length then []
    else
      (if 0 < col - letter_idx then [(row, col - letter_idx - 1)] else []) ++
      (if 0 < col - letter_idx ∧ cell g row (col - letter_idx - 1) ≠ ' '
       then []
       else
         (if col - letter_idx + w.length < g.length then
            [(row, col - letter_idx + w.length)] else []) ++
         (if col - letter_idx + w.length < g.length ∧
             cell g row (col - letter_idx + w.length) ≠ ' ' then []
          else ivpLoopAcc
            (ivpStepH g w letter_idx row (col - letter_idx) wl)
            (ivpStepHAcc g w letter_idx row (col - letter_idx) wl) 0
            (List.range w.length)))
  | Dir.V =>
    if (row : Int) - letter_idx < 0 ∨
        (row : Int) - letter_idx + w.length > g.length then []
    else
      (if 0 < row - letter_idx then [(row - letter_idx - 1, col)] else []) ++
      (if 0 < row - letter_idx ∧ cell g (row - letter_idx - 1) col ≠ ' '
       then []
       else
         (if row - letter_idx + w.length < g.length then
            [(row - letter_idx + w.length, col)] else []) ++
         (if row - letter_idx + w.length < g.length ∧
             cell g (row - letter_idx + w.length) col ≠ ' ' then []
          else ivpLoopAcc
            (ivpStepV g w letter_idx col (row - letter_idx) wl)
            (ivpStepVAcc g w letter_idx col (row - letter_idx) wl) 0
            (List.range w.length)))

/-- Accesses of `find_best_placement` at one grid cell (lines 117-129):
the letter-match read, then both validator runs when it matches. -/
def fbpCellAcc (g : Grid) (w : Str) (wl : List Str) (i row col : Nat) :
    List (Nat × Nat) :=
  (row, col) ::
  (if w.getD i ' ' = cell g row col then
     ivpAcc g w i row col Dir.H wl ++ ivpAcc g w i row col Dir.V wl
   else [])

/-- Accesses of `find_best_placement` (lines 96-136): the full scan. -/
def fbpAcc (w : Str) (g : Grid) (wl : List Str) : List (Nat × Nat) :=
  (List.range w.length).flatMap (fun i =>
    (List.range g.length).flatMap (fun row =>
      (List.range g.length).flatMap (fun col => fbpCellAcc g w wl i row col)))

/-- Accesses (writes) of `place_word` (lines 79-93). -/
def place_wordAcc (w : Str) (letter_idx row col : Nat) (d : Dir) :
    List (Nat × Nat) :=
  match d with
  | Dir.H => (List.range w.length).map (fun i => (row, col - letter_idx + i))
  | Dir.V => (List.range w.length).map (fun i => (row - letter_idx + i, col))

/-- Accesses of one `build_crossword` loop iteration (lines 49-55): the
search scan, then the placement writes when a position is returned. -/
def buildStepAcc (wl : List Str) (st : Grid × Placements) (iw : Nat × Str) :
    List (Nat × Nat) :=
  fbpAcc iw.2 st.1 wl ++
  (match find_best_placement iw.2 st.1 wl with
   | some (row, col, letter_idx, d) =>
     if posTruthy row col letter_idx d then
       place_wordAcc iw.2 letter_idx row col d
     else []
   | none => [])

/-- Accesses of `build_crossword` (lines 34-58): the first word's writes,
then each remaining word's iteration on the evolving grid. -/
def buildAcc (g : Grid) (wl : List Str) (choice : Dir × Nat) :
    List (Nat × Nat) :=
  match wl with
  | [] => []
  | first :: rest =>
    (match choice.1 with
     | Dir.H => place_wordAcc first 0 (choice.2 % g.length) 0 Dir.H
     | Dir.V => place_wordAcc first 0 0 (choice.2 % g.length) Dir.V) ++
    ((rest.enum).foldl
      (fun (q : (Grid × Placements) × List (Nat × Nat)) iw =>
        (buildStep wl q.1 iw, q.2 ++ buildStepAcc wl q.1 iw))
      (place_first g first [] choice, [])).2

/-- Accesses of `count_blanks` (lines 331-340): every cell. -/
def cbAcc (g : Grid) : List (Nat × Nat) :=
  (List.range g.length).flatMap (fun row =>
    (List.range g.length).map (fun col => (row, col)))

/-- Accesses of one `generate` attempt (lines 362-372): the build on a
fresh grid of the current size, then the blank count of complete
attempts. -/
def genStepAcc (swl : List Str) (rng : Rng) (st : Candidates × Nat)
    (i : Nat) : List (Nat × Nat) :=
  buildAcc (init_grid st.2) swl (rng i) ++
  (if (build_crossword (init_grid st.2) swl (rng i)).2.length = swl.length
   then cbAcc (build_crossword (init_grid st.2) swl (rng i)).1
   else [])

/-- All grid accesses performed by attempt `i` of `generate wordlist`
(none for the empty list, on which `generate` raises before the loop). -/
def attemptAcc (wordlist : List Str) (rng : Rng) (i : Nat) :
    List (Nat × Nat) :=
  match sortWords wordlist with
  | [] => []
  | w0 :: rest =>
    genStepAcc (w0 :: rest) rng (genLoop (w0 :: rest) rng w0.length i) i

/-! ## Helper lemmas about the attempt loop -/

/-- Folding a step function over any index range leaves a fixed point of
the step unchanged. -/
theorem foldl_fixed {α : Type} (f : α → Nat → α) (s : α)
    (h : ∀ i, f s i = s) (a n : Nat) : (List.range' a n).foldl f s = s := by
  induction n generalizing a with
  | zero => rfl
  | succ n ih => rw [List.range'_succ, List.foldl_cons, h, ih]

/-- Unfold one attempt at the end of the loop. -/
theorem genLoop_succ (swl : List Str) (rng : Rng) (sz0 n : Nat) :
    genLoop swl rng sz0 (n + 1)
      = genStep swl rng (genLoop swl rng sz0 n) n := by
  unfold genLoop
  rw [List.range_succ, List.foldl_append, List.foldl_cons, List.foldl_nil]

/-- If the state after attempt 0 is a fixed point of every later attempt,
it is the state after all 100 attempts. -/
theorem genLoop_hundred (swl : List Str) (rng : Rng) (sz0 : Nat)
    (s1 : Candidates × Nat) (h0 : genStep swl rng ([], sz0) 0 = s1)
    (hfix : ∀ i, genStep swl rng s1 i = s1) :
    genLoop swl rng sz0 100 = s1 := by
  have hr : List.range 100 = 0 :: List.range' 1 99 := by
    rw [List.range_eq_range']
    rfl
  unfold genLoop
  rw [hr, List.foldl_cons, h0, foldl_fixed _ _ hfix]

set_option maxRecDepth 100000 in
set_option maxHeartbeats 2000000 in
/-- One attempt on `c1Input` with the draw (vertical, position 0) builds
the complete crossword with the orphan column "qrsh". -/
theorem c1_build0 :
    build_crossword (init_grid 6) (sortWords c1Input) (Dir.V, 0)
      = (c1Grid, c1Placements) := by
  rfl

/-- Every attempt of the C1 run builds that same crossword. -/
theorem c1_build (i : Nat) :
    build_crossword (init_grid 6) (sortWords c1Input) (c1Rng i)
      = (c1Grid, c1Placements) := by
  rw [show c1Rng i = (Dir.V, 0) from rfl]
  exact c1_build0

/-- One attempt of the C1 run from any state at grid size 6 records the
attempt-0 candidate. -/
theorem c1_step (d : Candidates) (i : Nat) :
    genStep (sortWords c1Input) c1Rng (d, 6) i
      = (pyDictInsert d 24 (c1Grid, c1Placements), 6) := by
  unfold genStep
  simp only [c1_build i]
  rw [if_pos (show c1Placements.length = (sortWords c1Input).length from rfl)]
  rw [show count_blanks c1Grid = 24 from rfl]

/-- The state after attempt 0 of the C1 run. -/
theorem c1_step0 :
    genStep (sortWords c1Input) c1Rng ([], 6) 0 = c1S1 := by
  rw [c1_step]
  rfl

/-- Every later attempt of the C1 run reproduces the same grid and leaves
the state unchanged. -/
theorem c1_fix (i : Nat) :
    genStep (sortWords c1Input) c1Rng c1S1 i = c1S1 := by
  rw [show c1S1 = ([(24, (c1Grid, c1Placements))], 6) from rfl, c1_step]
  rfl

/-- The full C1 run returns the candidate of attempt 0. -/
theorem c1_generate :
    generate c1Input c1Rng = .ok (some (c1Grid, c1Placements)) := by
  have h : genLoop (sortWords c1Input) c1Rng 6 100 = c1S1 :=
    genLoop_hundred _ _ _ _ c1_step0 c1_fix
  have h2 : generate c1Input c1Rng = generateFrom (sortWords c1Input) c1Rng 6 :=
    rfl
  rw [h2]
  unfold generateFrom
  rw [h]
  rfl

/-! ## Claim C1 (code bug) -/

/-- C1: the no-orphan-run invariant ("every maximal non-blank run of
length ≥ 2 in any row or column of a returned grid exactly matches some
input word") is violated by the code: on the word list
["abcdef", "cpq", "qrs", "fgh"], with every attempt drawing (vertical,
position 0), `generate` returns a grid whose column 2 holds the maximal
run "qrsh", which matches no input word.  The validator checks the
perpendicular run next to a pending letter as it stands *before* the
letter is written, so placing "fgh" under the vertical word "qrs"
extends it to the orphan run "qrsh" undetected. -/
theorem c1_orphan_run_returned :
    generate c1Input c1Rng = .ok (some (c1Grid, c1Placements)) ∧
    noOrphanRuns c1Grid c1Input = false ∧
    lineRuns ((colsOf c1Grid).getD 2 []) = [s2l "qrsh"] ∧
    c1Input.contains (s2l "qrsh") = false := by
  refine ⟨c1_generate, by decide, by decide, by decide⟩

/-! ## Claim C2 (corrected) -/

/-- C2 counterexample: attempt 0 of `generate ["ab"]` (any draws;
here every attempt draws (horizontal, row 0)) is complete, and although
`0 % 5 = 0`, the grid size used for attempt 1 is still 2, not 3: the
escalation is *not* a fixed modulo schedule independent of success. -/
theorem c2_counterexample :
    (0 : Nat) % 5 = 0 ∧ attemptComplete abInput constRngH 0 = true ∧
    ¬ gridSizeAt abInput constRngH (0 + 1)
        = gridSizeAt abInput constRngH 0 + 1 := by
  refine ⟨rfl, by decide, by decide⟩

/-- Unfold one attempt of the grid-size trajectory: the size escalates
exactly on incomplete attempts with index divisible by 5. -/
theorem sizeAt_succ (swl : List Str) (rng : Rng) (sz0 i : Nat) :
    sizeAt swl rng sz0 (i + 1) =
      (if (build_crossword (init_grid (sizeAt swl rng sz0 i)) swl
            (rng i)).2.length = swl.length
       then sizeAt swl rng sz0 i
       else if i % 5 = 0 then sizeAt swl rng sz0 i + 1
       else sizeAt swl rng sz0 i) := by
  unfold sizeAt
  rw [genLoop_succ]
  unfold genStep
  rcases hb : build_crossword (init_grid (genLoop swl rng sz0 i).2) swl
      (rng i) with ⟨cw, pl⟩
  by_cases hc : pl.length = swl.length
  · simp [hb, hc]
  · by_cases h5 : i % 5 = 0 <;> simp [hb, hc, h5]

/-- C2 amended: the grid size for the next attempt is one larger than the
size at attempt `i` exactly when attempt `i` did **not** produce a
complete placement map and `i % 5 = 0`; otherwise it is unchanged
(the `grid_size += 1` of line 372 sits in the incomplete branch of
line 369). -/
theorem c2_escalation_on_incomplete (wordlist : List Str) (rng : Rng)
    (i : Nat) :
    gridSizeAt wordlist rng (i + 1) =
      (if attemptComplete wordlist rng i then gridSizeAt wordlist rng i
       else if i % 5 = 0 then gridSizeAt wordlist rng i + 1
       else gridSizeAt wordlist rng i) := by
  cases h : sortWords wordlist with
  | nil =>
    unfold gridSizeAt attemptComplete
    rw [h]
    simp [build_crossword]
  | cons w0 rest =>
    have hg : ∀ j, gridSizeAt wordlist rng j
        = sizeAt (w0 :: rest) rng w0.length j := by
      intro j
      unfold gridSizeAt
      rw [h]
    have hc : attemptComplete wordlist rng i =
        decide ((build_crossword
          (init_grid (sizeAt (w0 :: rest) rng w0.length i)) (w0 :: rest)
          (rng i)).2.length = (w0 :: rest).length) := by
      simp only [attemptComplete]
      rw [h, hg i]
    rw [hg (i + 1), hg i, hc, sizeAt_succ]
    simp only [decide_eq_true_eq]

/-! ## Claim C3 (corrected) -/

/-- C3 counterexample: `generate([])` does not return the explicit
no-result signal; it raises (the model's `IndexError` from
`wordlist_sorted[0]`, line 357). -/
theorem c3_counterexample :
    generate [] constRngH = .error PyErr.indexError ∧
    generate [] constRngH ≠ .ok none := by
  refine ⟨rfl, fun h => ?_⟩
  exact Except.noConfusion h

/-- C3 amended: on the empty word list `generate` terminates by raising
the index error at `wordlist_sorted[0]`, for every random trace — it
produces neither a grid nor the explicit failure return. -/
theorem c3_empty_list_raises (rng : Rng) :
    generate [] rng = .error PyErr.indexError := rfl

/-! ## Claim C4 (corrected) -/

/-- The fold computing the longest word's length never drops below its
initial value. -/
theorem foldl_max_init_le (wl : List Str) : ∀ (m : Nat),
    m ≤ wl.foldl (fun a w => max a w.length) m := by
  induction wl with
  | nil => intro m; exact le_refl m
  | cons x xs ih =>
    intro m
    exact le_trans (le_max_left m x.length) (ih (max m x.length))

/-- Bound a list member's length by the fold, for any initial value. -/
theorem length_le_foldl_max : ∀ (wl : List Str) (m : Nat) (w : Str),
    w ∈ wl → w.length ≤ wl.foldl (fun a w => max a w.length) m := by
  intro wl
  induction wl with
  | nil => intro m w h; cases h
  | cons x xs ih =>
    intro m w h
    rcases List.mem_cons.mp h with h | h
    · subst h
      exact le_trans (le_max_right m w.length)
        (foldl_max_init_le xs (max m w.length))
    · exact ih (max m x.length) w h

/-- Every word of the list is at most `maxWordLen` long. -/
theorem length_le_maxWordLen {wl : List Str} {w : Str} (h : w ∈ wl) :
    w.length ≤ maxWordLen wl :=
  length_le_foldl_max wl 0 w h

/-- The backward adjacency scan adds exactly one letter per offset while
it hits neither a blank nor the edge ("look up", vertical case). -/
theorem lookUp_length (g : Grid) (row col : Nat) : ∀ (k s : Nat) (acc : Str),
    (∀ i, s ≤ i → i < s + k → i ≤ row ∧ cell g (row - i) col ≠ ' ') →
    (lookUp g row col (List.range' s k) acc).length = k + acc.length := by
  intro k
  induction k with
  | zero =>
    intro s acc h
    rw [List.range'_zero]
    simp [lookUp]
  | succ k ih =>
    intro s acc h
    rw [List.range'_succ]
    obtain ⟨h1, h2⟩ := h s (le_refl s) (by omega)
    simp only [lookUp]
    rw [if_pos h1, if_neg h2]
    rw [ih (s + 1) _ (fun i hi1 hi2 => h i (by omega) (by omega))]
    simp only [List.length_cons]
    omega

/-- Same for the leftward scan of the horizontal case. -/
theorem lookLeft_length (g : Grid) (row col : Nat) : ∀ (k s : Nat) (acc : Str),
    (∀ i, s ≤ i → i < s + k → i ≤ col ∧ cell g row (col - i) ≠ ' ') →
    (lookLeft g row col (List.range' s k) acc).length = k + acc.length := by
  intro k
  induction k with
  | zero =>
    intro s acc h
    rw [List.range'_zero]
    simp [lookLeft]
  | succ k ih =>
    intro s acc h
    rw [List.range'_succ]
    obtain ⟨h1, h2⟩ := h s (le_refl s) (by omega)
    simp only [lookLeft]
    rw [if_pos h1, if_neg h2]
    rw [ih (s + 1) _ (fun i hi1 hi2 => h i (by omega) (by omega))]
    simp only [List.length_cons]
    omega

/-- The forward adjacency scan never shortens its accumulator
(vertical case). -/
theorem lookDown_length_mono (g : Grid) (row col : Nat) :
    ∀ (offs : List Nat) (acc : Str),
      acc.length ≤ (lookDown g row col offs acc).length := by
  intro offs
  induction offs with
  | nil => intro acc; exact le_refl _
  | cons i rest ih =>
    intro acc
    simp only [lookDown]
    split_ifs with h1 h2
    · exact le_refl _
    · exact le_trans (by simp) (ih (acc ++ [cell g (row + i) col]))
    · exact le_refl _

/-- Same for the rightward scan of the horizontal case. -/
theorem lookRight_length_mono (g : Grid) (row col : Nat) :
    ∀ (offs : List Nat) (acc : Str),
      acc.length ≤ (lookRight g row col offs acc).length := by
  intro offs
  induction offs with
  | nil => intro acc; exact le_refl _
  | cons i rest ih =>
    intro acc
    simp only [lookRight]
    split_ifs with h1 h2
    · exact le_refl _
    · exact le_trans (by simp) (ih (acc ++ [cell g row (col + i)]))
    · exact le_refl _

/-- If the cell right below is a letter, the downward scan grows the
accumulator by at least one. -/
theorem lookDown_extends (g : Grid) (row col : Nat) (rest : List Nat)
    (acc : Str) (h1 : row + 1 < g.length) (h2 : cell g (row + 1) col ≠ ' ') :
    acc.length + 1 ≤ (lookDown g row col (1 :: rest) acc).length := by
  simp only [lookDown]
  rw [if_pos h1, if_neg (by push_neg; exact ⟨h2, by omega⟩)]
  calc acc.length + 1 = (acc ++ [cell g (row + 1) col]).length := by simp
    _ ≤ _ := lookDown_length_mono g row col rest _

/-- If the cell right of `col` is a letter, the rightward scan grows the
accumulator by at least one. -/
theorem lookRight_extends (g : Grid) (row col : Nat) (rest : List Nat)
    (acc : Str) (h1 : col + 1 < g.length) (h2 : cell g row (col + 1) ≠ ' ') :
    acc.length + 1 ≤ (lookRight g row col (1 :: rest) acc).length := by
  simp only [lookRight]
  rw [if_pos h1, if_neg (by push_neg; exact ⟨h2, by omega⟩)]
  calc acc.length + 1 = (acc ++ [cell g row (col + 1)]).length := by simp
    _ ≤ _ := lookRight_length_mono g row col rest _

/-- C4 counterexample: in the grid whose column 0 spells "xabc" with word
list ["abc"], the scan from cell (3,0) upward reaches the bound
`max_len = 3` without hitting a blank or the edge (the run continues with
'x'), yet `is_adjacent_word` returns true: the truncated reconstruction
"abc" happens to be a word, so a bound-truncated run is *not* always
treated as not-a-known-word. -/
theorem c4_counterexample :
    reachesBound c4Grid c4Wl 3 0 Dir.V ∧
    cell c4Grid 0 0 ≠ ' ' ∧
    is_adjacent_word c4Grid 3 0 Dir.V c4Wl = true := by
  refine ⟨by decide, by decide, by decide⟩

/-- C4 amended: the outward scan is bounded by the longest word's length,
and a run that reaches this bound without closing is treated as
not-a-known-word *unless* its truncated reconstruction itself spells an
input word; in particular, whenever the run also continues on the
opposite side of the inspected cell, the reconstruction is longer than
every input word and the checker returns false. -/
theorem c4_bounded_scan_fails_closed (g : Grid) (wl : List Str)
    (row col : Nat) (d : Dir) (hmax : 2 ≤ maxWordLen wl)
    (hreach : reachesBound g wl row col d)
    (hext : runExtendsAhead g row col d) :
    is_adjacent_word g row col d wl = false := by
  cases d with
  | V =>
    simp only [reachesBound] at hreach
    simp only [runExtendsAhead] at hext
    simp only [is_adjacent_word, adjRun]
    have hup : (lookUp g row col (List.range' 1 (maxWordLen wl - 1))
        [cell g row col]).length = (maxWordLen wl - 1) + 1 :=
      lookUp_length g row col (maxWordLen wl - 1) 1 [cell g row col]
        (fun i hi1 hi2 => hreach i (by omega) hi1)
    set U := lookUp g row col (List.range' 1 (maxWordLen wl - 1))
      [cell g row col] with hU
    rw [show List.range' 1 (maxWordLen wl - 1)
        = 1 :: List.range' 2 (maxWordLen wl - 2) by
      rw [show maxWordLen wl - 1 = (maxWordLen wl - 2) + 1 by omega,
        List.range'_succ]]
    have hlen : U.length + 1 ≤
        (lookDown g row col (1 :: List.range' 2 (maxWordLen wl - 2))
          U).length :=
      lookDown_extends g row col _ U hext.1 hext.2
    rw [Bool.eq_false_iff]
    intro hc
    have hmem := List.elem_iff.mp hc
    have := length_le_maxWordLen hmem
    omega
  | H =>
    simp only [reachesBound] at hreach
    simp only [runExtendsAhead] at hext
    simp only [is_adjacent_word, adjRun]
    have hup : (lookLeft g row col (List.range' 1 (maxWordLen wl - 1))
        [cell g row col]).length = (maxWordLen wl - 1) + 1 :=
      lookLeft_length g row col (maxWordLen wl - 1) 1 [cell g row col]
        (fun i hi1 hi2 => hreach i (by omega) hi1)
    set U := lookLeft g row col (List.range' 1 (maxWordLen wl - 1))
      [cell g row col] with hU
    rw [show List.range' 1 (maxWordLen wl - 1)
        = 1 :: List.range' 2 (maxWordLen wl - 2) by
      rw [show maxWordLen wl - 1 = (maxWordLen wl - 2) + 1 by omega,
        List.range'_succ]]
    have hlen : U.length + 1 ≤
        (lookRight g row col (1 :: List.range' 2 (maxWordLen wl - 2))
          U).length :=
      lookRight_extends g row col _ U hext.1 hext.2
    rw [Bool.eq_false_iff]
    intro hc
    have hmem := List.elem_iff.mp hc
    have := length_le_maxWordLen hmem
    omega

/-- C4 witness: the amended theorem applied to the grid whose column 0
spells "xyabz", word list ["abc"], cell (2,0): the scan reaches the bound
with the run continuing below, and the checker indeed returns false. -/
theorem c4_witness :
    is_adjacent_word c4WitGrid 2 0 Dir.V c4Wl = false :=
  c4_bounded_scan_fails_closed c4WitGrid c4Wl 2 0 Dir.V (by decide)
    (by decide) (by decide)

/-! ## Claim C7 (corrected) -/

/-- Folding over a flattened list is the nested fold. -/
theorem foldl_flatMap {α β γ : Type} (l : List α) (m : α → List β)
    (f : γ → β → γ) (init : γ) :
    (l.flatMap m).foldl f init
      = l.foldl (fun st a => (m a).foldl f st) init := by
  induction l generalizing init with
  | nil => rfl
  | cons x xs ih =>
    rw [List.flatMap_cons, List.foldl_append, List.foldl_cons, ih]

/-- One grid cell of the scan handles the 'H' candidate, then the 'V'
candidate. -/
theorem fbpCell_eq_flat (g : Grid) (w : Str) (wl : List Str)
    (i row col : Nat) (st : FbpState) :
    fbpCell g w wl i row col st
      = [(row, col, i, Dir.H), (row, col, i, Dir.V)].foldl
          (fbpFlat g w wl) st := by
  rw [List.foldl_cons, List.foldl_cons, List.foldl_nil]
  unfold fbpCell fbpFlat
  by_cases h : w.getD i ' ' = cell g row col
  · rw [if_pos h, if_pos h, if_pos h]
  · rw [if_neg h, if_neg h, if_neg h]

/-- `find_best_placement` is the linear fold of the scan body over the
flattened scan order. -/
theorem fbp_eq_scan (w : Str) (g : Grid) (wl : List Str) :
    find_best_placement w g wl
      = ((scanOrder w g).foldl (fbpFlat g w wl) ((-1 : Int), none)).2 := by
  unfold find_best_placement scanOrder
  rw [foldl_flatMap]
  simp only [foldl_flatMap]
  simp only [← fbpCell_eq_flat]

/-- The scan body is the abstract last-max step for the hit predicate and
score function. -/
theorem fbpFlat_eq_lastStep (g : Grid) (w : Str) (wl : List Str)
    (st : FbpState) (q : Nat × Nat × Nat × Dir) :
    fbpFlat g w wl st q
      = lastStep (scoreAt w g wl) (hitAt w g wl) st q := by
  unfold fbpFlat lastStep
  by_cases hm : w.getD q.2.2.1 ' ' = cell g q.1 q.2.1
  · rw [if_pos hm]
    unfold fbpConsider
    cases hv : is_valid_placement g w q.2.2.1 q.1 q.2.1 q.2.2.2 wl with
    | none =>
      have hh : hitAt w g wl q = false := by
        unfold hitAt
        rw [hv]
        simp
      rw [hh]
      simp
    | some s =>
      have hh : hitAt w g wl q = true := by
        unfold hitAt
        rw [hv]
        simp only [Option.isSome_some, Bool.and_true]
        exact beq_iff_eq.mpr hm
      have hs : scoreAt w g wl q = s := by
        unfold scoreAt
        rw [hv]
        rfl
      rw [hh, hs]
      simp
  · rw [if_neg hm]
    have hh : hitAt w g wl q = false := by
      unfold hitAt
      have hb : (w.getD q.2.2.1 ' ' == cell g q.1 q.2.1) = false := by
        simpa using hm
      rw [hb]
      simp
    rw [hh]
    simp

/-- The last-max fold either sees no hit and stays at `(-1, none)`, or
ends on a hit that scores at least as much as every earlier hit and
strictly more than every later one. -/
theorem lastStep_spec {α : Type} (score : α → Nat) (hit : α → Bool)
    (L : List α) :
    (L.foldl (lastStep score hit) ((-1 : Int), none) = ((-1 : Int), none) ∧
      L.filter hit = []) ∨
    (∃ p pre post,
      L.foldl (lastStep score hit) ((-1 : Int), none)
        = (((score p : Nat) : Int), some p) ∧
      L.filter hit = pre ++ p :: post ∧
      (∀ q ∈ pre, score q ≤ score p) ∧
      (∀ q ∈ post, score q < score p)) := by
  induction L using List.reverseRecOn with
  | nil => left; exact ⟨rfl, rfl⟩
  | append_singleton L q ih =>
    rw [List.foldl_append, List.foldl_cons, List.foldl_nil,
      List.filter_append]
    rcases ih with ⟨hst, hfil⟩ | ⟨p, pre, post, hst, hfil, hpre, hpost⟩
    · rw [hst, hfil]
      by_cases hq : hit q = true
      · right
        refine ⟨q, [], [], ?_, ?_, ?_, ?_⟩
        · unfold lastStep
          rw [if_pos hq, if_pos (by omega : ((score q : Nat) : Int) ≥ -1)]
        · simp [List.filter_cons, hq]
        · intro x hx; cases hx
        · intro x hx; cases hx
      · left
        refine ⟨?_, ?_⟩
        · unfold lastStep; rw [if_neg hq]
        · simp [List.filter_cons, hq]
    · rw [hst]
      by_cases hq : hit q = true
      · by_cases hge : ((score q : Nat) : Int) ≥ ((score p : Nat) : Int)
        · right
          refine ⟨q, pre ++ p :: post, [], ?_, ?_, ?_, ?_⟩
          · unfold lastStep; rw [if_pos hq, if_pos hge]
          · rw [hfil]; simp [List.filter_cons, hq]
          · intro x hx
            have hqp : score p ≤ score q := by exact_mod_cast hge
            rcases List.mem_append.mp hx with hx | hx
            · exact le_trans (hpre x hx) hqp
            · rcases List.mem_cons.mp hx with rfl | hx
              · exact hqp
              · exact le_trans (le_of_lt (hpost x hx)) hqp
          · intro x hx; cases hx
        · right
          refine ⟨p, pre, post ++ [q], ?_, ?_, hpre, ?_⟩
          · unfold lastStep; rw [if_pos hq, if_neg hge]
          · rw [hfil]; simp [List.filter_cons, hq]
          · intro x hx
            rcases List.mem_append.mp hx with hx | hx
            · exact hpost x hx
            · rcases List.mem_cons.mp hx with rfl | hx
              · exact_mod_cast not_le.mp hge
              · cases hx
      · right
        refine ⟨p, pre, post, ?_, ?_, hpre, hpost⟩
        · unfold lastStep; rw [if_neg hq]
        · rw [hfil]; simp [List.filter_cons, hq]

/-- C7 counterexample: on the blank 1×1 grid with word list ["a"], the
horizontal placement of "a" at (0,0) is valid (score 0), yet
`find_best_placement` returns no placement at all: placements with no
anchor-letter overlap are never scanned, so the returned placement is not
"the maximum over all valid placements" when only zero-overlap valid
placements exist. -/
theorem c7_counterexample :
    is_valid_placement c7Grid (s2l "a") 0 0 0 Dir.H c7Wl = some 0 ∧
    find_best_placement (s2l "a") c7Grid c7Wl = none := by
  refine ⟨by decide, by decide⟩

/-- `find_best_placement` as the abstract last-max fold over the scan
order. -/
theorem fbp_eq_lastFold (w : Str) (g : Grid) (wl : List Str) :
    find_best_placement w g wl
      = ((scanOrder w g).foldl
          (lastStep (scoreAt w g wl) (hitAt w g wl)) ((-1 : Int), none)).2 := by
  rw [fbp_eq_scan]
  congr 2
  funext st q
  exact fbpFlat_eq_lastStep g w wl st q

/-- C7 amended: `find_best_placement` scans exactly the placements
anchored at a grid cell that already holds one of the word's letters
(letter offsets outer, then row-major cells, 'H' before 'V').  It returns
no placement iff no anchored placement is valid — even if unanchored
zero-overlap valid placements exist — and otherwise returns the
anchored valid placement of maximal overlap score, where a later-scanned
placement with score equal to the current best replaces it (so the last
equal-best wins). -/
theorem c7_last_equal_best_wins (w : Str) (g : Grid) (wl : List Str) :
    (find_best_placement w g wl = none ↔ validScans w g wl = []) ∧
    (∀ p, find_best_placement w g wl = some p →
      ∃ pre post, validScans w g wl = pre ++ p :: post ∧
        (∀ q ∈ pre, scoreAt w g wl q ≤ scoreAt w g wl p) ∧
        (∀ q ∈ post, scoreAt w g wl q < scoreAt w g wl p)) := by
  have he := fbp_eq_lastFold w g wl
  have hv : validScans w g wl = (scanOrder w g).filter (hitAt w g wl) := rfl
  rcases lastStep_spec (scoreAt w g wl) (hitAt w g wl) (scanOrder w g) with
    ⟨hst, hfil⟩ | ⟨p, pre, post, hst, hfil, hpre, hpost⟩
  · constructor
    · rw [he, hst, hv, hfil]
      exact ⟨fun _ => rfl, fun _ => rfl⟩
    · intro p hp
      rw [he, hst] at hp
      cases hp
  · constructor
    · rw [he, hst, hv, hfil]
      constructor
      · intro h; cases h
      · intro h
        exact absurd h (List.append_ne_nil_of_right_ne_nil pre
          (List.cons_ne_nil p post))
    · intro p' hp'
      rw [he, hst] at hp'
      have : p = p' := by
        simpa using hp'
      subst this
      exact ⟨pre, post, by rw [hv, hfil], hpre, hpost⟩

/-- C7 witness: on the 1×1 blank grid there are no anchored valid scans,
and the amended theorem yields that the search reports no placement. -/
theorem c7_witness :
    find_best_placement (s2l "a") c7Grid c7Wl = none :=
  (c7_last_equal_best_wins (s2l "a") c7Grid c7Wl).1.mpr (by decide)

/-! ## Claim C10 (confirmed) -/

/-- The below-check never decreases the overlap count (horizontal). -/
theorem ivpBelowH_mono (g : Grid) (w : Str) (letter_idx row start : Nat)
    (wl : List Str) (a j a' : Nat)
    (h : ivpBelowH g w letter_idx row start wl a j = some a') : a ≤ a' := by
  unfold ivpBelowH at h
  split_ifs at h with h1 h2
  · injection h with h
    omega
  · injection h with h
    omega

/-- The right-check never decreases the overlap count (vertical). -/
theorem ivpRightV_mono (g : Grid) (w : Str) (letter_idx col start : Nat)
    (wl : List Str) (a j a' : Nat)
    (h : ivpRightV g w letter_idx col start wl a j = some a') : a ≤ a' := by
  unfold ivpRightV at h
  split_ifs at h with h1 h2
  · injection h with h
    omega
  · injection h with h
    omega

/-- The per-letter validator step never decreases the overlap count
(horizontal case). -/
theorem ivpStepH_mono (g : Grid) (w : Str) (letter_idx row start : Nat)
    (wl : List Str) (a j a' : Nat)
    (h : ivpStepH g w letter_idx row start wl a j = some a') : a ≤ a' := by
  simp only [ivpStepH] at h
  split_ifs at h <;>
    first
      | cases h
      | (have hm := ivpBelowH_mono g w letter_idx row start wl _ j a' h
         omega)

/-- The per-letter validator step never decreases the overlap count
(vertical case). -/
theorem ivpStepV_mono (g : Grid) (w : Str) (letter_idx col start : Nat)
    (wl : List Str) (a j a' : Nat)
    (h : ivpStepV g w letter_idx col start wl a j = some a') : a ≤ a' := by
  simp only [ivpStepV] at h
  split_ifs at h <;>
    first
      | cases h
      | (have hm := ivpRightV_mono g w letter_idx col start wl _ j a' h
         omega)

/-- At the anchor offset the validator step counts the overlap of the
matched letter (horizontal case): the count strictly increases. -/
theorem ivpStepH_anchor (g : Grid) (w : Str) (letter_idx row start : Nat)
    (wl : List Str) (a a' : Nat)
    (hcell : cell g row (start + letter_idx) = w.getD letter_idx ' ')
    (h : ivpStepH g w letter_idx row start wl a letter_idx = some a') :
    a + 1 ≤ a' := by
  unfold ivpStepH ivpBelowH at h
  rw [hcell] at h
  simp at h
  omega

/-- Same at the anchor offset, vertical case. -/
theorem ivpStepV_anchor (g : Grid) (w : Str) (letter_idx col start : Nat)
    (wl : List Str) (a a' : Nat)
    (hcell : cell g (start + letter_idx) col = w.getD letter_idx ' ')
    (h : ivpStepV g w letter_idx col start wl a letter_idx = some a') :
    a + 1 ≤ a' := by
  unfold ivpStepV ivpRightV at h
  rw [hcell] at h
  simp at h
  omega

/-- A successful per-letter loop never decreases the running count. -/
theorem ivpLoop_some_ge (step : Nat → Nat → Option Nat)
    (hmono : ∀ a j a', step a j = some a' → a ≤ a') :
    ∀ (l : List Nat) (acc s : Nat), ivpLoop step acc l = some s → acc ≤ s := by
  intro l
  induction l with
  | nil =>
    intro acc s h
    simp only [ivpLoop] at h
    injection h with h
    omega
  | cons j rest ih =>
    intro acc s h
    simp only [ivpLoop] at h
    cases hs : step acc j with
    | none => rw [hs] at h; cases h
    | some a2 =>
      rw [hs] at h
      exact le_trans (hmono acc j a2 hs) (ih a2 s h)

/-- A successful per-letter loop that passes through the anchor offset
ends with a strictly larger count. -/
theorem ivpLoop_anchor (step : Nat → Nat → Option Nat) (i0 : Nat)
    (hmono : ∀ a j a', step a j = some a' → a ≤ a')
    (hanc : ∀ a a', step a i0 = some a' → a + 1 ≤ a') :
    ∀ (l : List Nat) (acc s : Nat), i0 ∈ l →
      ivpLoop step acc l = some s → acc + 1 ≤ s := by
  intro l
  induction l with
  | nil => intro acc s hm h; cases hm
  | cons j rest ih =>
    intro acc s hm h
    simp only [ivpLoop] at h
    cases hs : step acc j with
    | none => rw [hs] at h; cases h
    | some a2 =>
      rw [hs] at h
      rcases List.mem_cons.mp hm with rfl | hm2
      · exact le_trans (hanc acc a2 hs) (ivpLoop_some_ge step hmono rest a2 s h)
      · exact le_trans (Nat.succ_le_succ (hmono acc j a2 hs)) (ih a2 s hm2 h)

/-- A placement the validator approves, anchored on a cell that already
holds the word's letter, scores at least one overlap. -/
theorem ivp_anchor_score (g : Grid) (w : Str) (letter_idx row col : Nat)
    (d : Dir) (wl : List Str) (s : Nat)
    (hi : letter_idx < w.length)
    (hcell : cell g row col = w.getD letter_idx ' ')
    (h : is_valid_placement g w letter_idx row col d wl = some s) :
    1 ≤ s := by
  cases d with
  | H =>
    simp only [is_valid_placement] at h
    split_ifs at h with h1 h2 h3
    have hle : letter_idx ≤ col := by
      push_neg at h1
      have := h1.1
      omega
    have hstart : col - letter_idx + letter_idx = col := by omega
    exact ivpLoop_anchor _ letter_idx
      (ivpStepH_mono g w letter_idx row (col - letter_idx) wl)
      (fun a a' ha =>
        ivpStepH_anchor g w letter_idx row (col - letter_idx) wl a a'
          (by rw [hstart]; exact hcell) ha)
      (List.range w.length) 0 s (List.mem_range.mpr hi) h
  | V =>
    simp only [is_valid_placement] at h
    split_ifs at h with h1 h2 h3
    have hle : letter_idx ≤ row := by
      push_neg at h1
      have := h1.1
      omega
    have hstart : row - letter_idx + letter_idx = row := by omega
    exact ivpLoop_anchor _ letter_idx
      (ivpStepV_mono g w letter_idx col (row - letter_idx) wl)
      (fun a a' ha =>
        ivpStepV_anchor g w letter_idx col (row - letter_idx) wl a a'
          (by rw [hstart]; exact hcell) ha)
      (List.range w.length) 0 s (List.mem_range.mpr hi) h

/-- A candidate in the scan order has its letter offset inside the word
and its cell inside the grid. -/
theorem mem_scanOrder (w : Str) (g : Grid) (row col i : Nat) (d : Dir)
    (h : (row, col, i, d) ∈ scanOrder w g) :
    i < w.length ∧ row < g.length ∧ col < g.length := by
  unfold scanOrder at h
  rcases List.mem_flatMap.mp h with ⟨i', hi', h2⟩
  rcases List.mem_flatMap.mp h2 with ⟨r', hr', h3⟩
  rcases List.mem_flatMap.mp h3 with ⟨c', hc', h4⟩
  have hi'' := List.mem_range.mp hi'
  have hr'' := List.mem_range.mp hr'
  have hc'' := List.mem_range.mp hc'
  rcases List.mem_cons.mp h4 with h4 | h4
  · obtain ⟨hr, hc, hi, hd⟩ : row = r' ∧ col = c' ∧ i = i' ∧ d = Dir.H := by
      simpa using h4
    subst hr; subst hc; subst hi
    exact ⟨hi'', hr'', hc''⟩
  · obtain ⟨hr, hc, hi, hd⟩ : row = r' ∧ col = c' ∧ i = i' ∧ d = Dir.V := by
      simpa using h4
    subst hr; subst hc; subst hi
    exact ⟨hi'', hr'', hc''⟩

/-- A returned placement was scanned and accepted. -/
theorem fbp_some_hit (w : Str) (g : Grid) (wl : List Str)
    (p : Nat × Nat × Nat × Dir)
    (h : find_best_placement w g wl = some p) :
    p ∈ scanOrder w g ∧ hitAt w g wl p = true := by
  have he := fbp_eq_lastFold w g wl
  rcases lastStep_spec (scoreAt w g wl) (hitAt w g wl) (scanOrder w g) with
    ⟨hst, hfil⟩ | ⟨p', pre, post, hst, hfil, hpre, hpost⟩
  · rw [he, hst] at h
    cases h
  · rw [he, hst] at h
    have hpp : p' = p := by simpa using h
    subst hpp
    have hmem : p' ∈ (scanOrder w g).filter (hitAt w g wl) := by
      rw [hfil]
      exact List.mem_append_right pre (List.mem_cons_self p' post)
    exact ⟨(List.mem_filter.mp hmem).1, (List.mem_filter.mp hmem).2⟩

/-- C10: every placement the search returns is anchored on a grid cell
that already holds the word's anchored letter — the anchor cell is
non-blank and equal to the word's letter at the anchor offset — and the
approved placement scores at least one overlap.  Hence in
`build_crossword` every word placed after the first overlaps the letters
already on the grid; no word after the first is ever placed disconnected. -/
theorem c10_anchored_letter_overlap (w : Str) (g : Grid) (wl : List Str)
    (row col i : Nat) (d : Dir) (hblank : ' ' ∉ w)
    (hfbp : find_best_placement w g wl = some (row, col, i, d)) :
    i < w.length ∧ cell g row col = w.getD i ' ' ∧ cell g row col ≠ ' ' ∧
    ∃ s, is_valid_placement g w i row col d wl = some s ∧ 1 ≤ s := by
  obtain ⟨hmem, hhit⟩ := fbp_some_hit w g wl (row, col, i, d) hfbp
  obtain ⟨hi, hr, hc⟩ := mem_scanOrder w g row col i d hmem
  unfold hitAt at hhit
  rw [Bool.and_eq_true] at hhit
  have hcell : w.getD i ' ' = cell g row col := beq_iff_eq.mp hhit.1
  have hlet : w.getD i ' ' ∈ w := by
    rw [List.getD_eq_getElem w ' ' hi]
    exact List.getElem_mem hi
  have hnb : cell g row col ≠ ' ' := by
    rw [← hcell]
    intro hsp
    exact hblank (hsp ▸ hlet)
  obtain ⟨s, hs⟩ := Option.isSome_iff_exists.mp hhit.2
  exact ⟨hi, hcell.symm, hnb,
    ⟨s, hs, ivp_anchor_score g w i row col d wl s hi hcell.symm hs⟩⟩

/-- C10 witness: on a 2×2 grid whose cell (0,0) holds 'a', the word "ab"
is placed anchored at that non-blank matching cell with one overlap. -/
theorem c10_witness :
    (0 : Nat) < (s2l "ab").length ∧
    cell [s2l "a ", s2l "  "] 0 0 = (s2l "ab").getD 0 ' ' ∧
    cell [s2l "a ", s2l "  "] 0 0 ≠ ' ' ∧
    ∃ s, is_valid_placement [s2l "a ", s2l "  "] (s2l "ab") 0 0 0 Dir.V
        [s2l "ab"] = some s ∧ 1 ≤ s :=
  c10_anchored_letter_overlap (s2l "ab") [s2l "a ", s2l "  "] [s2l "ab"]
    0 0 0 Dir.V (by decide) (by decide)

/-! ## Claim C6 (confirmed) -/

/-- Python dict insertion only produces old entries or the new pair. -/
theorem mem_pyDictInsert {α : Type} (d : List (Nat × α)) (k : Nat) (v : α)
    (e : Nat × α) (h : e ∈ pyDictInsert d k v) : e ∈ d ∨ e = (k, v) := by
  unfold pyDictInsert at h
  split_ifs at h with hany
  · rcases List.mem_map.mp h with ⟨p, hp, hpe⟩
    by_cases hpk : (p.1 == k) = true
    · right
      rw [← hpe]
      simp [hpk]
    · left
      rw [← hpe]
      simp only [hpk]
      simpa using hp
  · rcases List.mem_append.mp h with h | h
    · left; exact h
    · right; simpa using h

/-- The inserted pair is in the dict afterwards. -/
theorem pyDictInsert_self_mem {α : Type} (d : List (Nat × α)) (k : Nat)
    (v : α) : (k, v) ∈ pyDictInsert d k v := by
  unfold pyDictInsert
  split_ifs with hany
  · rcases List.any_eq_true.mp hany with ⟨p, hp, hpk⟩
    refine List.mem_map.mpr ⟨p, hp, ?_⟩
    simp [hpk]
  · exact List.mem_append_right d (List.mem_singleton.mpr rfl)

/-- Keys never disappear from the dict on insertion. -/
theorem pyDictInsert_key_persists {α : Type} (d : List (Nat × α))
    (k : Nat) (v : α) (k0 : Nat) (v0 : α) (h : (k0, v0) ∈ d) :
    ∃ v2, (k0, v2) ∈ pyDictInsert d k v := by
  unfold pyDictInsert
  split_ifs with hany
  · by_cases hk : (k0 == k) = true
    · have hk0 : k0 = k := by simpa using hk
      subst hk0
      exact ⟨v, List.mem_map.mpr ⟨(k0, v0), h, by simp⟩⟩
    · refine ⟨v0, List.mem_map.mpr ⟨(k0, v0), h, ?_⟩⟩
      simp only [hk]
      simp
  · exact ⟨v0, List.mem_append_left _ h⟩

/-- Every entry of the candidate dict is keyed by its grid's blank
count. -/
theorem genLoop_counts (swl : List Str) (rng : Rng) (sz0 : Nat) :
    ∀ (n : Nat) (k : Nat) (gp : Grid × Placements),
      (k, gp) ∈ (genLoop swl rng sz0 n).1 → k = count_blanks gp.1 := by
  intro n
  induction n with
  | zero =>
    intro k gp h
    simp [genLoop] at h
  | succ n ih =>
    intro k gp h
    rw [genLoop_succ] at h
    rcases hb : build_crossword (init_grid (genLoop swl rng sz0 n).2) swl
        (rng n) with ⟨cw, pl⟩
    simp only [genStep, hb] at h
    by_cases hc : pl.length = swl.length
    · rw [if_pos hc] at h
      simp only at h
      rcases mem_pyDictInsert _ _ _ _ h with h | h
      · exact ih k gp h
      · have h2 : k = count_blanks cw ∧ gp = (cw, pl) := by simpa using h
        rw [h2.1, h2.2]
    · rw [if_neg hc] at h
      by_cases h5 : n % 5 = 0
      · rw [if_pos h5] at h
        exact ih k gp h
      · rw [if_neg h5] at h
        exact ih k gp h

/-- Unfold one attempt of the recorded-candidate trace. -/
theorem recordedAux_succ (swl : List Str) (rng : Rng) (sz0 n : Nat) :
    recordedAux swl rng sz0 (n + 1)
      = (if (build_crossword (init_grid (sizeAt swl rng sz0 n)) swl
              (rng n)).2.length = swl.length
         then recordedAux swl rng sz0 n
            ++ [(count_blanks (build_crossword
                  (init_grid (sizeAt swl rng sz0 n)) swl (rng n)).1,
                build_crossword (init_grid (sizeAt swl rng sz0 n)) swl
                  (rng n))]
         else recordedAux swl rng sz0 n) := by
  unfold recordedAux
  rw [List.range_succ, List.foldl_append, List.foldl_cons, List.foldl_nil]

/-- Every recorded candidate is keyed by its grid's blank count. -/
theorem recordedAux_counts (swl : List Str) (rng : Rng) (sz0 : Nat) :
    ∀ (n : Nat) (c : Nat) (gp : Grid × Placements),
      (c, gp) ∈ recordedAux swl rng sz0 n → c = count_blanks gp.1 := by
  intro n
  induction n with
  | zero =>
    intro c gp h
    simp [recordedAux] at h
  | succ n ih =>
    intro c gp h
    rw [recordedAux_succ] at h
    split_ifs at h with hc
    · rcases List.mem_append.mp h with h | h
      · exact ih c gp h
      · have h0 := List.mem_singleton.mp h
        have h1 : c = count_blanks (build_crossword
            (init_grid (sizeAt swl rng sz0 n)) swl (rng n)).1 ∧
            gp = build_crossword (init_grid (sizeAt swl rng sz0 n)) swl
              (rng n) := by
          simpa using h0
        rw [h1.1, h1.2]
    · exact ih c gp h

/-- The blank count of every recorded candidate is a key of the final
candidate dict (an equal count recorded later overwrites the dict entry
but keeps the key). -/
theorem recorded_key_in_dict (swl : List Str) (rng : Rng) (sz0 : Nat) :
    ∀ (n : Nat) (c : Nat) (gp : Grid × Placements),
      (c, gp) ∈ recordedAux swl rng sz0 n →
      ∃ v2, (c, v2) ∈ (genLoop swl rng sz0 n).1 := by
  intro n
  induction n with
  | zero =>
    intro c gp h
    simp [recordedAux] at h
  | succ n ih =>
    intro c gp h
    rw [recordedAux_succ] at h
    rw [genLoop_succ]
    rcases hb : build_crossword (init_grid (sizeAt swl rng sz0 n)) swl
        (rng n) with ⟨cw, pl⟩
    rw [hb] at h
    have hb2 : build_crossword (init_grid (genLoop swl rng sz0 n).2) swl
        (rng n) = (cw, pl) := hb
    simp only [genStep, hb2]
    by_cases hc : pl.length = swl.length
    · rw [if_pos (by simpa using hc)] at h
      rw [if_pos hc]
      simp only
      rcases List.mem_append.mp h with h | h
      · obtain ⟨v2, hv2⟩ := ih c gp h
        exact pyDictInsert_key_persists _ _ _ _ _ hv2
      · have h1 : c = count_blanks cw ∧ gp = (cw, pl) := by simpa using h
        rw [h1.1]
        exact ⟨(cw, pl), pyDictInsert_self_mem _ _ _⟩
    · rw [if_neg (by simpa using hc)] at h
      rw [if_neg hc]
      by_cases h5 : n % 5 = 0
      · rw [if_pos h5]
        exact ih c gp h
      · rw [if_neg h5]
        exact ih c gp h

/-- What the final dict selection returns: an entry whose key is minimal
among all keys. -/
theorem selectMin_spec {α : Type} (d : List (Nat × α)) (v : α)
    (h : selectMin d = some v) :
    ∃ k, (k, v) ∈ d ∧ ∀ x ∈ d, k ≤ x.1 := by
  unfold selectMin at h
  cases hmin : (d.map Prod.fst).min? with
  | none =>
    rw [hmin] at h
    have h2 : (none : Option α) = some v := h
    cases h2
  | some k =>
    rw [hmin] at h
    have h2 : Option.map Prod.snd (d.find? (fun p => p.1 == k))
        = some v := h
    cases hf : d.find? (fun p => p.1 == k) with
    | none =>
      rw [hf] at h2
      cases h2
    | some p =>
      rw [hf] at h2
      have hv : p.2 = v := by simpa using h2
      have hp : p ∈ d := List.mem_of_find?_eq_some hf
      have hkey : p.1 = k := by
        have h2 := List.find?_some hf
        simpa using h2
      have hmm := (List.min?_eq_some_iff (fun a : Nat => le_refl a)
        (fun a b => min_choice a b) (fun a b c => Nat.le_min)).mp hmin
      obtain ⟨hkmem, hkle⟩ := hmm
      refine ⟨k, ?_, ?_⟩
      · have hpkv : (k, v) = p := by
          rw [← hkey, ← hv]
        rw [hpkv]
        exact hp
      · intro x hx
        exact hkle x.1 (List.mem_map.mpr ⟨x, hx, rfl⟩)

/-- C6: within one `generate` call, the returned grid's blank count is at
most the blank count of every Candidate Grid recorded during that call:
the driver returns a density minimum over all recorded candidates. -/
theorem c6_returned_grid_densest (wordlist : List Str) (rng : Rng)
    (g : Grid) (pl : Placements)
    (h : generate wordlist rng = .ok (some (g, pl))) :
    ∀ c g2 pl2, (c, (g2, pl2)) ∈ recordedGrids wordlist rng →
      count_blanks g ≤ count_blanks g2 := by
  cases hs : sortWords wordlist with
  | nil =>
    unfold generate at h
    rw [hs] at h
    cases h
  | cons w0 rest =>
    unfold generate at h
    rw [hs] at h
    have h2 : generateFrom (w0 :: rest) rng w0.length
        = .ok (some (g, pl)) := h
    unfold generateFrom at h2
    cases hsel : selectMin (genLoop (w0 :: rest) rng w0.length 100).1 with
    | none =>
      rw [hsel] at h2
      simp at h2
    | some v =>
      rw [hsel] at h2
      rcases v with ⟨cw, plv⟩
      have hgp : cw = g ∧ plv = pl := by
        have h3 : (Except.ok (some (cw, plv))
            : Except PyErr (Option (Grid × Placements)))
            = .ok (some (g, pl)) := h2
        simpa using h3
      obtain ⟨k, hkmem, hkle⟩ := selectMin_spec _ _ hsel
      have hkg : k = count_blanks cw :=
        genLoop_counts (w0 :: rest) rng w0.length 100 k (cw, plv) hkmem
      intro c g2 pl3 hc
      unfold recordedGrids at hc
      rw [hs] at hc
      have hcc : c = count_blanks g2 :=
        recordedAux_counts (w0 :: rest) rng w0.length 100 c (g2, pl3) hc
      obtain ⟨v2, hv2⟩ :=
        recorded_key_in_dict (w0 :: rest) rng w0.length 100 c (g2, pl3) hc
      have hkc := hkle (c, v2) hv2
      rw [← hgp.1]
      omega

/-- Recorded candidates persist as the attempt loop continues. -/
theorem recordedAux_mono (swl : List Str) (rng : Rng) (sz0 : Nat)
    (n : Nat) (e : Nat × (Grid × Placements))
    (h : e ∈ recordedAux swl rng sz0 n) :
    e ∈ recordedAux swl rng sz0 (n + 1) := by
  rw [recordedAux_succ]
  split_ifs with hc
  · exact List.mem_append_left _ h
  · exact h

/-- Recorded candidates persist to any later point of the loop. -/
theorem recordedAux_le (swl : List Str) (rng : Rng) (sz0 : Nat)
    (m n : Nat) (hmn : m ≤ n) (e : Nat × (Grid × Placements))
    (h : e ∈ recordedAux swl rng sz0 m) :
    e ∈ recordedAux swl rng sz0 n := by
  induction hmn with
  | refl => exact h
  | step h2 ih =>
    exact recordedAux_mono swl rng sz0 _ e ih

/-! ### The `generate ["ab"]` run, evaluated (used by several
witnesses) -/

set_option maxRecDepth 100000 in
/-- One attempt on `["ab"]` with the draw (horizontal, row 0) places the
word across row 0 of the 2×2 grid. -/
theorem ab_build0 :
    build_crossword (init_grid 2) (sortWords abInput) (Dir.H, 0)
      = (abGrid, abPlacements) := by
  rfl

/-- Every attempt of the `["ab"]` run builds that same grid. -/
theorem ab_build (i : Nat) :
    build_crossword (init_grid 2) (sortWords abInput) (constRngH i)
      = (abGrid, abPlacements) := by
  rw [show constRngH i = (Dir.H, 0) from rfl]
  exact ab_build0

/-- One attempt of the `["ab"]` run from any state at grid size 2 records
the attempt-0 candidate. -/
theorem ab_step (d : Candidates) (i : Nat) :
    genStep (sortWords abInput) constRngH (d, 2) i
      = (pyDictInsert d 2 (abGrid, abPlacements), 2) := by
  unfold genStep
  simp only [ab_build i]
  rw [if_pos (show abPlacements.length = (sortWords abInput).length
    from rfl)]
  rw [show count_blanks abGrid = 2 from rfl]

/-- The state after attempt 0 of the `["ab"]` run. -/
theorem ab_step0 :
    genStep (sortWords abInput) constRngH ([], 2) 0 = abS1 := by
  rw [ab_step]
  rfl

/-- Every later attempt leaves the state unchanged. -/
theorem ab_fix (i : Nat) :
    genStep (sortWords abInput) constRngH abS1 i = abS1 := by
  rw [show abS1 = ([(2, (abGrid, abPlacements))], 2) from rfl, ab_step]
  rfl

/-- The full `["ab"]` run returns the attempt-0 candidate. -/
theorem ab_generate :
    generate abInput constRngH = .ok (some (abGrid, abPlacements)) := by
  have h : genLoop (sortWords abInput) constRngH 2 100 = abS1 :=
    genLoop_hundred _ _ _ _ ab_step0 ab_fix
  have h2 : generate abInput constRngH
      = generateFrom (sortWords abInput) constRngH 2 := rfl
  rw [h2]
  unfold generateFrom
  rw [h]
  rfl

/-- Attempt 0 of the `["ab"]` run is recorded with blank count 2. -/
theorem ab_recorded1 :
    recordedAux (sortWords abInput) constRngH 2 1
      = [(2, (abGrid, abPlacements))] := by
  unfold recordedAux
  rw [show List.range 1 = [0] from rfl, List.foldl_cons, List.foldl_nil]
  rw [show sizeAt (sortWords abInput) constRngH 2 0 = 2 from rfl]
  simp only [ab_build 0]
  rw [if_pos (show abPlacements.length = (sortWords abInput).length
    from rfl)]
  rw [show count_blanks abGrid = 2 from rfl]
  rfl

/-- C6 witness: the claim theorem applied to the concrete `["ab"]` run and
its recorded attempt-0 candidate. -/
theorem c6_witness :
    count_blanks abGrid ≤ count_blanks abGrid := by
  have hmem : ((2 : Nat), (abGrid, abPlacements))
      ∈ recordedGrids abInput constRngH := by
    show ((2 : Nat), (abGrid, abPlacements))
      ∈ recordedAux (sortWords abInput) constRngH 2 100
    refine recordedAux_le (sortWords abInput) constRngH 2 1 100 (by omega)
      _ ?_
    rw [ab_recorded1]
    exact List.mem_singleton.mpr rfl
  exact c6_returned_grid_densest abInput constRngH abGrid abPlacements
    ab_generate 2 abGrid abPlacements hmem

/-! ## Grid write/read lemmas (used by C9 and C5) -/

/-- A row index inside a well-sized grid picks a row of full length. -/
theorem row_length (g : Grid) (n r : Nat) (hws : WellSized g n)
    (hr : r < n) : (g.getD r []).length = n := by
  have hr2 : r < g.length := by rw [hws.1]; exact hr
  rw [List.getD_eq_getElem g [] hr2]
  exact hws.2 _ (List.getElem_mem hr2)

/-- Writing one cell keeps the grid well-sized. -/
theorem setCell_wellSized (g : Grid) (n r c : Nat) (ch : Char)
    (hws : WellSized g n) (hr : r < n) :
    WellSized (setCell g r c ch) n := by
  constructor
  · rw [setCell, List.length_set]
    exact hws.1
  · intro row hrow
    rcases List.mem_or_eq_of_mem_set hrow with h | h
    · exact hws.2 row h
    · rw [h, List.length_set]
      exact row_length g n r hws hr

/-- Reading back the cell just written. -/
theorem cell_setCell_same (g : Grid) (n r c : Nat) (ch : Char)
    (hws : WellSized g n) (hr : r < n) (hc : c < n) :
    cell (setCell g r c ch) r c = ch := by
  have hr2 : r < g.length := by rw [hws.1]; exact hr
  have hc2 : c < (g.getD r []).length := by
    rw [row_length g n r hws hr]
    exact hc
  unfold cell setCell
  rw [List.get?_eq_getElem?, List.getElem?_set_self hr2]
  simp only [Option.some_bind]
  rw [List.get?_eq_getElem?, List.getElem?_set_self hc2]
  rfl

/-- Writing one cell does not change any other cell. -/
theorem cell_setCell_ne (g : Grid) (r c r2 c2 : Nat) (ch : Char)
    (h : r2 ≠ r ∨ c2 ≠ c) :
    cell (setCell g r c ch) r2 c2 = cell g r2 c2 := by
  unfold cell setCell
  by_cases hrr : r2 = r
  · subst hrr
    have hcc : c2 ≠ c := h.resolve_left (by simp)
    by_cases hlen : r2 < g.length
    · rw [List.get?_eq_getElem?, List.getElem?_set_self hlen,
        List.get?_eq_getElem?, List.getElem?_eq_getElem hlen]
      simp only [Option.some_bind]
      rw [List.get?_eq_getElem?, List.getElem?_set_ne (fun he => hcc he.symm),
        List.get?_eq_getElem?]
      rw [List.getD_eq_getElem g [] hlen]
    · rw [List.set_eq_of_length_le (by omega)]
  · rw [List.get?_eq_getElem?, List.getElem?_set_ne (fun he => hrr he.symm),
      List.get?_eq_getElem?]

/-- The horizontal write loop of `place_word`: cells outside the written
span are untouched. -/
theorem writeH_cell_out (g : Grid) (w : Str) (row start : Nat) :
    ∀ (k : Nat) (r2 c2 : Nat), (r2 ≠ row ∨ c2 < start ∨ start + k ≤ c2) →
      cell ((List.range k).foldl
        (fun g i => setCell g row (start + i) (w.getD i ' ')) g) r2 c2
      = cell g r2 c2 := by
  intro k
  induction k with
  | zero => intro r2 c2 h; rfl
  | succ k ih =>
    intro r2 c2 h
    rw [List.range_succ, List.foldl_append, List.foldl_cons, List.foldl_nil]
    rw [cell_setCell_ne]
    · exact ih r2 c2 (by omega)
    · rcases h with h | h | h
      · exact Or.inl h
      · exact Or.inr (by omega)
      · exact Or.inr (by omega)

/-- The horizontal write loop keeps the grid well-sized. -/
theorem writeH_wellSized (g : Grid) (w : Str) (n row start : Nat)
    (hws : WellSized g n) (hrow : row < n) :
    ∀ (k : Nat), WellSized ((List.range k).foldl
      (fun g i => setCell g row (start + i) (w.getD i ' ')) g) n := by
  intro k
  induction k with
  | zero => exact hws
  | succ k ih =>
    rw [List.range_succ, List.foldl_append, List.foldl_cons, List.foldl_nil]
    exact setCell_wellSized _ n row _ _ ih hrow

/-- The horizontal write loop writes the word's letters on its span. -/
theorem writeH_cell_in (g : Grid) (w : Str) (n row start : Nat)
    (hws : WellSized g n) (hrow : row < n) :
    ∀ (k : Nat), start + k ≤ n → ∀ i < k,
      cell ((List.range k).foldl
        (fun g i => setCell g row (start + i) (w.getD i ' ')) g) row
        (start + i)
      = w.getD i ' ' := by
  intro k
  induction k with
  | zero => intro hk i hi; omega
  | succ k ih =>
    intro hk i hi
    rw [List.range_succ, List.foldl_append, List.foldl_cons, List.foldl_nil]
    by_cases hik : i = k
    · subst hik
      exact cell_setCell_same _ n row (start + i) _
        (writeH_wellSized g w n row start hws hrow i) hrow (by omega)
    · rw [cell_setCell_ne _ _ _ _ _ _ (Or.inr (by omega))]
      exact ih (by omega) i (by omega)

/-- The vertical write loop: cells outside the written span are
untouched. -/
theorem writeV_cell_out (g : Grid) (w : Str) (col start : Nat) :
    ∀ (k : Nat) (r2 c2 : Nat), (c2 ≠ col ∨ r2 < start ∨ start + k ≤ r2) →
      cell ((List.range k).foldl
        (fun g i => setCell g (start + i) col (w.getD i ' ')) g) r2 c2
      = cell g r2 c2 := by
  intro k
  induction k with
  | zero => intro r2 c2 h; rfl
  | succ k ih =>
    intro r2 c2 h
    rw [List.range_succ, List.foldl_append, List.foldl_cons, List.foldl_nil]
    rw [cell_setCell_ne]
    · exact ih r2 c2 (by omega)
    · rcases h with h | h | h
      · exact Or.inr h
      · exact Or.inl (by omega)
      · exact Or.inl (by omega)

/-- The vertical write loop keeps the grid well-sized. -/
theorem writeV_wellSized (g : Grid) (w : Str) (n col start : Nat)
    (hws : WellSized g n) :
    ∀ (k : Nat), start + k ≤ n → WellSized ((List.range k).foldl
      (fun g i => setCell g (start + i) col (w.getD i ' ')) g) n := by
  intro k
  induction k with
  | zero => intro hk; exact hws
  | succ k ih =>
    intro hk
    rw [List.range_succ, List.foldl_append, List.foldl_cons, List.foldl_nil]
    exact setCell_wellSized _ n (start + k) _ _ (ih (by omega)) (by omega)

/-- The vertical write loop writes the word's letters on its span. -/
theorem writeV_cell_in (g : Grid) (w : Str) (n col start : Nat)
    (hws : WellSized g n) (hcol : col < n) :
    ∀ (k : Nat), start + k ≤ n → ∀ i < k,
      cell ((List.range k).foldl
        (fun g i => setCell g (start + i) col (w.getD i ' ')) g)
        (start + i) col
      = w.getD i ' ' := by
  intro k
  induction k with
  | zero => intro hk i hi; omega
  | succ k ih =>
    intro hk i hi
    rw [List.range_succ, List.foldl_append, List.foldl_cons, List.foldl_nil]
    by_cases hik : i = k
    · subst hik
      exact cell_setCell_same _ n (start + i) col _
        (writeV_wellSized g w n col start hws i (by omega)) (by omega) hcol
    · rw [cell_setCell_ne _ _ _ _ _ _ (Or.inl (by omega))]
      exact ih (by omega) i (by omega)

/-- Reading a word off the grid cell by cell reproduces it when every
cell holds the right letter. -/
theorem readWord_of_cells (g : Grid) (w : Str) (r c : Nat) (d : Dir)
    (h : ∀ i < w.length,
      (match d with
       | Dir.H => cell g r (c + i)
       | Dir.V => cell g (r + i) c) = w.getD i ' ') :
    readWord g (w, (r, c), d) = w := by
  cases d with
  | H =>
    unfold readWord
    refine List.ext_getElem (by simp) ?_
    intro i h1 h2
    have hi : i < w.length := by simpa using h2
    rw [List.getElem_map, List.getElem_range]
    have := h i hi
    simp only at this
    rw [this, List.getD_eq_getElem w ' ' hi]
  | V =>
    unfold readWord
    refine List.ext_getElem (by simp) ?_
    intro i h1 h2
    have hi : i < w.length := by simpa using h2
    rw [List.getElem_map, List.getElem_range]
    have := h i hi
    simp only at this
    rw [this, List.getD_eq_getElem w ' ' hi]

/-- Inserting into the empty dict yields the one-entry dict. -/
theorem pyDictInsert_nil {α : Type} (k : Nat) (v : α) :
    pyDictInsert ([] : List (Nat × α)) k v = [(k, v)] := by
  unfold pyDictInsert
  simp

/-- The empty grid is well-sized. -/
theorem init_grid_wellSized (n : Nat) : WellSized (init_grid n) n := by
  constructor
  · exact List.length_replicate n _
  · intro row hrow
    rw [(List.mem_replicate.mp hrow).2]
    exact List.length_replicate n ' '

/-- Every cell of the empty grid is blank. -/
theorem cell_init_grid (n r c : Nat) (hr : r < n) (hc : c < n) :
    cell (init_grid n) r c = ' ' := by
  unfold cell init_grid
  rw [List.get?_eq_getElem?,
    List.getElem?_eq_getElem (by simpa using hr)]
  simp only [List.getElem_replicate, Option.some_bind]
  rw [List.get?_eq_getElem?,
    List.getElem?_eq_getElem (by simpa using hc)]
  simp

/-! ## Claim C9 (confirmed) -/

/-- The grid component of a horizontal `place_word` is the write loop. -/
theorem place_word_grid_H (g : Grid) (w : Str) (li row col : Nat)
    (pl : Placements) (num : Nat) :
    (place_word g w li row col Dir.H pl num).1
      = (List.range w.length).foldl
          (fun g i => setCell g row (col - li + i) (w.getD i ' ')) g := rfl

/-- The placements component of a horizontal `place_word`. -/
theorem place_word_pl_H (g : Grid) (w : Str) (li row col : Nat)
    (pl : Placements) (num : Nat) :
    (place_word g w li row col Dir.H pl num).2
      = pyDictInsert pl num (w, (row, col - li), Dir.H) := rfl

/-- The grid component of a vertical `place_word` is the write loop. -/
theorem place_word_grid_V (g : Grid) (w : Str) (li row col : Nat)
    (pl : Placements) (num : Nat) :
    (place_word g w li row col Dir.V pl num).1
      = (List.range w.length).foldl
          (fun g i => setCell g (row - li + i) col (w.getD i ' ')) g := rfl

/-- The placements component of a vertical `place_word`. -/
theorem place_word_pl_V (g : Grid) (w : Str) (li row col : Nat)
    (pl : Placements) (num : Nat) :
    (place_word g w li row col Dir.V pl num).2
      = pyDictInsert pl num (w, (row - li, col), Dir.V) := rfl

/-- A single-word build places the word and nothing else: its placement
map is the one-entry map. -/
theorem build_single_pl_length (g : Grid) (w : Str) (ch : Dir × Nat) :
    (build_crossword g [w] ch).2.length = 1 := by
  rcases ch with ⟨d, pos⟩
  cases d <;> rfl

/-- A single-word attempt on the blank `len(w)`-sized grid produces a
well-sized grid with the word placed across a full row or column. -/
theorem build_single_good (w : Str) (hw : w ≠ []) (ch : Dir × Nat) :
    singleGood w (build_crossword (init_grid w.length) [w] ch) := by
  have hL : 0 < w.length := List.length_pos.mpr hw
  have hsize : (init_grid w.length).length = w.length :=
    List.length_replicate _ _
  rcases ch with ⟨d, pos⟩
  cases d with
  | H =>
    have hb : build_crossword (init_grid w.length) [w] (Dir.H, pos)
        = place_word (init_grid w.length) w 0 (pos % w.length) 0 Dir.H [] 1 := by
      unfold build_crossword place_first
      rw [hsize]
      rfl
    rw [hb]
    have hrow : pos % w.length < w.length := Nat.mod_lt _ hL
    constructor
    · rw [place_word_grid_H]
      exact writeH_wellSized _ w w.length (pos % w.length) (0 - 0)
        (init_grid_wellSized _) hrow w.length
    · refine ⟨pos % w.length, 0, Dir.H, ?_, Or.inl ⟨rfl, rfl, hrow⟩, ?_⟩
      · rw [place_word_pl_H, pyDictInsert_nil]
      · refine readWord_of_cells _ w _ 0 Dir.H ?_
        intro i hi
        simp only
        rw [place_word_grid_H]
        have := writeH_cell_in (init_grid w.length) w w.length
          (pos % w.length) (0 - 0) (init_grid_wellSized _) hrow w.length
          (by omega) i hi
        simpa using this
  | V =>
    have hb : build_crossword (init_grid w.length) [w] (Dir.V, pos)
        = place_word (init_grid w.length) w 0 0 (pos % w.length) Dir.V [] 1 := by
      unfold build_crossword place_first
      rw [hsize]
      rfl
    rw [hb]
    have hcol : pos % w.length < w.length := Nat.mod_lt _ hL
    constructor
    · rw [place_word_grid_V]
      exact writeV_wellSized _ w w.length (pos % w.length) (0 - 0)
        (init_grid_wellSized _) w.length (by omega)
    · refine ⟨0, pos % w.length, Dir.V, ?_, Or.inr ⟨rfl, rfl, hcol⟩, ?_⟩
      · rw [place_word_pl_V, pyDictInsert_nil]
      · refine readWord_of_cells _ w 0 _ Dir.V ?_
        intro i hi
        simp only
        rw [place_word_grid_V]
        have := writeV_cell_in (init_grid w.length) w w.length
          (pos % w.length) (0 - 0) (init_grid_wellSized _) hcol w.length
          (by omega) i hi
        simpa using this

/-- The grid size of a single-word run never escalates: every attempt is
complete. -/
theorem sizeAt_single (w : Str) (rng : Rng) :
    ∀ i, sizeAt [w] rng w.length i = w.length := by
  intro i
  induction i with
  | zero => rfl
  | succ i ih =>
    rw [sizeAt_succ]
    rw [if_pos]
    · exact ih
    · rw [build_single_pl_length]
      rfl

/-- One attempt of a single-word run from any state at grid size
`len(w)`: the state keeps its size, the dict becomes non-empty, and every
entry keeps the single-word shape. -/
theorem single_step (w : Str) (hw : w ≠ []) (rng : Rng) (d : Candidates)
    (i : Nat) (hd : ∀ e ∈ d, singleGood w e.2) :
    (genStep [w] rng (d, w.length) i).2 = w.length ∧
    (genStep [w] rng (d, w.length) i).1 ≠ [] ∧
    ∀ e ∈ (genStep [w] rng (d, w.length) i).1, singleGood w e.2 := by
  rcases hb : build_crossword (init_grid w.length) [w] (rng i)
    with ⟨cw, pl⟩
  have hpl : pl.length = 1 := by
    have := build_single_pl_length (init_grid w.length) w (rng i)
    rw [hb] at this
    exact this
  have hgood : singleGood w (cw, pl) := by
    have := build_single_good w hw (rng i)
    rw [hb] at this
    exact this
  have hstep : genStep [w] rng (d, w.length) i
      = (pyDictInsert d (count_blanks cw) (cw, pl), w.length) := by
    unfold genStep
    simp only [hb]
    rw [if_pos (by simpa using hpl)]
  rw [hstep]
  refine ⟨rfl, ?_, ?_⟩
  · exact List.ne_nil_of_mem (pyDictInsert_self_mem _ _ _)
  · intro e he
    rcases mem_pyDictInsert _ _ _ _ he with he | he
    · exact hd e he
    · rw [he]
      exact hgood

/-- After at least one attempt, the single-word run's state has grid size
`len(w)`, a non-empty candidate dict, and only single-word-shaped
candidates. -/
theorem single_loop (w : Str) (hw : w ≠ []) (rng : Rng) :
    ∀ n, 1 ≤ n →
      (genLoop [w] rng w.length n).2 = w.length ∧
      (genLoop [w] rng w.length n).1 ≠ [] ∧
      ∀ e ∈ (genLoop [w] rng w.length n).1, singleGood w e.2 := by
  intro n
  induction n with
  | zero => intro h; omega
  | succ n ih =>
    intro _
    rw [genLoop_succ]
    by_cases hn : 1 ≤ n
    · obtain ⟨h2, hne, hQ⟩ := ih hn
      have hst : genLoop [w] rng w.length n
          = ((genLoop [w] rng w.length n).1,
             (genLoop [w] rng w.length n).2) := Prod.mk.eta.symm
      rw [hst, h2]
      exact single_step w hw rng _ n hQ
    · have hn0 : n = 0 := by omega
      subst hn0
      have hst : genLoop [w] rng w.length 0 = ([], w.length) := rfl
      rw [hst]
      exact single_step w hw rng [] 0 (by intro e he; cases he)

/-- A non-empty dict yields a selected entry. -/
theorem selectMin_mem {α : Type} (d : List (Nat × α)) (hne : d ≠ []) :
    ∃ v, selectMin d = some v ∧ ∃ k, (k, v) ∈ d := by
  unfold selectMin
  cases hmin : (d.map Prod.fst).min? with
  | none =>
    exact absurd (List.map_eq_nil_iff.mp (List.min?_eq_none_iff.mp hmin)) hne
  | some k =>
    have hkmem : k ∈ d.map Prod.fst :=
      List.min?_mem (fun a b => min_choice a b) hmin
    obtain ⟨x, hx, hxk⟩ := List.mem_map.mp hkmem
    cases hf : d.find? (fun p => p.1 == k) with
    | none =>
      have := List.find?_eq_none.mp hf x hx
      rw [hxk] at this
      simp at this
    | some p =>
      refine ⟨p.2, ?_, p.1, ?_⟩
      · show Option.map Prod.snd (d.find? (fun p => p.1 == k)) = some p.2
        rw [hf]
        rfl
      · have := List.mem_of_find?_eq_some hf
        simpa using this

/-- C9: for a one-word list `[w]` (`w` non-empty of length L), every run
of `generate` keeps the grid size at L through all 100 attempts (no
escalation) and returns an L×L grid whose placement map holds exactly one
entry: the word anchored at column 0 of some row (direction 'H') or at
row 0 of some column (direction 'V'), so the placement covers an entire
row or column, and reading it back yields the word. -/
theorem c9_single_word_run (w : Str) (rng : Rng) (hw : w ≠ []) :
    (∀ i, sizeAt [w] rng w.length i = w.length) ∧
    ∃ g pl, generate [w] rng = .ok (some (g, pl)) ∧
      g.length = w.length ∧ (∀ row ∈ g, row.length = w.length) ∧
      ∃ r c d, pl = [(1, (w, (r, c), d))] ∧
        ((d = Dir.H ∧ c = 0 ∧ r < w.length) ∨
          (d = Dir.V ∧ r = 0 ∧ c < w.length)) ∧
        readWord g (w, (r, c), d) = w := by
  refine ⟨sizeAt_single w rng, ?_⟩
  obtain ⟨hsz, hne, hQ⟩ := single_loop w hw rng 100 (by omega)
  obtain ⟨v, hsel, k, hkmem⟩ :=
    selectMin_mem (genLoop [w] rng w.length 100).1 hne
  rcases v with ⟨g, pl⟩
  obtain ⟨hws, r, c, d, hpl, hpos, hread⟩ := hQ (k, (g, pl)) hkmem
  refine ⟨g, pl, ?_, hws.1, hws.2, r, c, d, hpl, hpos, hread⟩
  have hg : generate [w] rng = generateFrom [w] rng w.length := rfl
  rw [hg]
  unfold generateFrom
  rw [hsel]

/-- C9 witness: the concrete instance at the word "ab" (the size
trajectory instantiated at attempt 5). -/
theorem c9_witness :
    sizeAt [s2l "ab"] constRngH (s2l "ab").length 5 = (s2l "ab").length ∧
    (∃ g pl, generate [s2l "ab"] constRngH = .ok (some (g, pl)) ∧
      g.length = (s2l "ab").length ∧
      (∀ row ∈ g, row.length = (s2l "ab").length) ∧
      ∃ r c d, pl = [(1, (s2l "ab", (r, c), d))] ∧
        ((d = Dir.H ∧ c = 0 ∧ r < (s2l "ab").length) ∨
          (d = Dir.V ∧ r = 0 ∧ c < (s2l "ab").length)) ∧
        readWord g (s2l "ab", (r, c), d) = s2l "ab") := by
  have h := c9_single_word_run (s2l "ab") constRngH (by decide)
  exact ⟨h.1 5, h.2⟩


/-! ## Claim C5 (confirmed): every recorded placement reads back -/

/-- A per-letter loop that succeeds ran its step successfully at every
offset of the range. -/
theorem ivpLoop_all (step : Nat → Nat → Option Nat) :
    ∀ (l : List Nat) (acc r : Nat), ivpLoop step acc l = some r →
      ∀ i ∈ l, ∃ a b, step a i = some b := by
  intro l
  induction l with
  | nil => intro acc r h i hi; cases hi
  | cons j rest ih =>
    intro acc r h i hi
    unfold ivpLoop at h
    cases hstep : step acc j with
    | none =>
      rw [hstep] at h
      have h2 : (none : Option Nat) = some r := h
      cases h2
    | some acc2 =>
      rw [hstep] at h
      have h2 : ivpLoop step acc2 rest = some r := h
      rcases List.mem_cons.mp hi with hij | hir
      · exact ⟨acc, acc2, hij ▸ hstep⟩
      · exact ih acc2 r h2 i hir

/-- A successful horizontal per-letter step passed the collision check:
the cell under the letter is blank or already holds that letter
(source line 172). -/
theorem ivpStepH_compat (g : Grid) (w : Str) (letter_idx row start : Nat)
    (wl : List Str) (acc i b : Nat)
    (h : ivpStepH g w letter_idx row start wl acc i = some b) :
    cell g row (start + i) = ' ' ∨ cell g row (start + i) = w.getD i ' ' := by
  by_contra hc
  have hn : ivpStepH g w letter_idx row start wl acc i = none := by
    simp only [ivpStepH]
    rw [if_pos hc]
  rw [hn] at h
  cases h

/-- A successful vertical per-letter step passed the collision check
(source line 212). -/
theorem ivpStepV_compat (g : Grid) (w : Str) (letter_idx col start : Nat)
    (wl : List Str) (acc i b : Nat)
    (h : ivpStepV g w letter_idx col start wl acc i = some b) :
    cell g (start + i) col = ' ' ∨ cell g (start + i) col = w.getD i ' ' := by
  by_contra hc
  have hn : ivpStepV g w letter_idx col start wl acc i = none := by
    simp only [ivpStepV]
    rw [if_pos hc]
  rw [hn] at h
  cases h

/-- What a horizontal validator success guarantees: the word's span fits
the grid and every covered cell is blank or already the right letter. -/
theorem ivp_H_facts (g : Grid) (w : Str) (letter_idx row col : Nat)
    (wl : List Str) (s : Nat)
    (h : is_valid_placement g w letter_idx row col Dir.H wl = some s) :
    letter_idx ≤ col ∧ col - letter_idx + w.length ≤ g.length ∧
    ∀ i < w.length, cell g row (col - letter_idx + i) = ' ' ∨
      cell g row (col - letter_idx + i) = w.getD i ' ' := by
  simp only [is_valid_placement] at h
  split_ifs at h with h1 h2 h3
  push_neg at h1
  refine ⟨by omega, by omega, ?_⟩
  intro i hi
  obtain ⟨a, b, hab⟩ :=
    ivpLoop_all _ (List.range w.length) 0 s h i (List.mem_range.mpr hi)
  exact ivpStepH_compat g w letter_idx row (col - letter_idx) wl a i b hab

/-- What a vertical validator success guarantees. -/
theorem ivp_V_facts (g : Grid) (w : Str) (letter_idx row col : Nat)
    (wl : List Str) (s : Nat)
    (h : is_valid_placement g w letter_idx row col Dir.V wl = some s) :
    letter_idx ≤ row ∧ row - letter_idx + w.length ≤ g.length ∧
    ∀ i < w.length, cell g (row - letter_idx + i) col = ' ' ∨
      cell g (row - letter_idx + i) col = w.getD i ' ' := by
  simp only [is_valid_placement] at h
  split_ifs at h with h1 h2 h3
  push_neg at h1
  refine ⟨by omega, by omega, ?_⟩
  intro i hi
  obtain ⟨a, b, hab⟩ :=
    ivpLoop_all _ (List.range w.length) 0 s h i (List.mem_range.mpr hi)
  exact ivpStepV_compat g w letter_idx col (row - letter_idx) wl a i b hab

/-- Line 54's truthiness test always passes on a real position: the
direction component is a non-empty string. -/
theorem posTruthy_true (row col letter_idx : Nat) (d : Dir) :
    posTruthy row col letter_idx d = true := by
  cases d <;> simp [posTruthy]

/-- Reading a word back cell by cell determines each covered cell. -/
theorem cells_of_readWord (g : Grid) (w : Str) (r c : Nat) (d : Dir)
    (h : readWord g (w, (r, c), d) = w) :
    ∀ i < w.length,
      (match d with
       | Dir.H => cell g r (c + i)
       | Dir.V => cell g (r + i) c) = w.getD i ' ' := by
  intro i hi
  cases d with
  | H =>
    unfold readWord at h
    have h2 := congrArg (fun l => l.getD i ' ') h
    simp only at h2
    rw [List.getD_eq_getElem _ ' ' (by simpa using hi), List.getElem_map,
      List.getElem_range] at h2
    exact h2
  | V =>
    unfold readWord at h
    have h2 := congrArg (fun l => l.getD i ' ') h
    simp only at h2
    rw [List.getD_eq_getElem _ ' ' (by simpa using hi), List.getElem_map,
      List.getElem_range] at h2
    exact h2

/-- A validated horizontal write only changes cells that were blank. -/
theorem writeH_only_blanks (g : Grid) (w : Str) (n row start : Nat)
    (hws : WellSized g n) (hrow : row < n) (hlen : start + w.length ≤ n)
    (hcompat : ∀ i < w.length, cell g row (start + i) = ' ' ∨
      cell g row (start + i) = w.getD i ' ') :
    ∀ r c, cell ((List.range w.length).foldl
        (fun g i => setCell g row (start + i) (w.getD i ' ')) g) r c
      = cell g r c ∨ cell g r c = ' ' := by
  intro r c
  by_cases hin : r = row ∧ start ≤ c ∧ c < start + w.length
  · obtain ⟨hr, hc1, hc2⟩ := hin
    subst hr
    have hi : c - start < w.length := by omega
    have hcs : c = start + (c - start) := by omega
    rw [hcs]
    have hwin := writeH_cell_in g w n r start hws hrow w.length hlen
      (c - start) hi
    rcases hcompat (c - start) hi with hb | he
    · exact Or.inr hb
    · exact Or.inl (by rw [hwin, he])
  · push_neg at hin
    left
    refine writeH_cell_out g w row start w.length r c ?_
    by_cases hr : r = row
    · subst hr
      by_cases hc : start ≤ c
      · exact Or.inr (Or.inr (by have := hin rfl hc; omega))
      · exact Or.inr (Or.inl (by omega))
    · exact Or.inl hr

/-- A validated vertical write only changes cells that were blank. -/
theorem writeV_only_blanks (g : Grid) (w : Str) (n col start : Nat)
    (hws : WellSized g n) (hcol : col < n) (hlen : start + w.length ≤ n)
    (hcompat : ∀ i < w.length, cell g (start + i) col = ' ' ∨
      cell g (start + i) col = w.getD i ' ') :
    ∀ r c, cell ((List.range w.length).foldl
        (fun g i => setCell g (start + i) col (w.getD i ' ')) g) r c
      = cell g r c ∨ cell g r c = ' ' := by
  intro r c
  by_cases hin : c = col ∧ start ≤ r ∧ r < start + w.length
  · obtain ⟨hc, hr1, hr2⟩ := hin
    subst hc
    have hi : r - start < w.length := by omega
    have hrs : r = start + (r - start) := by omega
    rw [hrs]
    have hwin := writeV_cell_in g w n c start hws hcol w.length hlen
      (r - start) hi
    rcases hcompat (r - start) hi with hb | he
    · exact Or.inr hb
    · exact Or.inl (by rw [hwin, he])
  · push_neg at hin
    left
    refine writeV_cell_out g w col start w.length r c ?_
    by_cases hc : c = col
    · subst hc
      by_cases hr : start ≤ r
      · exact Or.inr (Or.inr (by have := hin rfl hr; omega))
      · exact Or.inr (Or.inl (by omega))
    · exact Or.inl hc

/-- A blank-free word that reads back keeps reading back after any write
that only changes blank cells. -/
theorem readWord_preserved (g g2 : Grid) (w : Str) (r c : Nat) (d : Dir)
    (hpres : ∀ r2 c2, cell g2 r2 c2 = cell g r2 c2 ∨ cell g r2 c2 = ' ')
    (hblank : ' ' ∉ w) (h : readWord g (w, (r, c), d) = w) :
    readWord g2 (w, (r, c), d) = w := by
  refine readWord_of_cells g2 w r c d ?_
  intro i hi
  have hcell := cells_of_readWord g w r c d h i hi
  have hmem : w.getD i ' ' ∈ w := by
    rw [List.getD_eq_getElem w ' ' hi]
    exact List.getElem_mem hi
  have hne : w.getD i ' ' ≠ ' ' := fun hsp => hblank (hsp ▸ hmem)
  cases d with
  | H =>
    have hc2 : cell g r (c + i) = w.getD i ' ' := hcell
    show cell g2 r (c + i) = w.getD i ' '
    rcases hpres r (c + i) with hp | hp
    · rw [hp]; exact hc2
    · exact absurd (hc2.symm.trans hp) hne
  | V =>
    have hc2 : cell g (r + i) c = w.getD i ' ' := hcell
    show cell g2 (r + i) c = w.getD i ' '
    rcases hpres (r + i) c with hp | hp
    · rw [hp]; exact hc2
    · exact absurd (hc2.symm.trans hp) hne

/-- One step of `build_crossword`'s loop preserves the build invariant:
an approved placement only extends blank cells (collision check) and adds
one entry that reads back (the word is written whole at its anchor). -/
theorem buildStep_good (wl : List Str) (n : Nat) (st : Grid × Placements)
    (iw : Nat × Str) (hblank : ' ' ∉ iw.2) (hgood : GoodPl n st) :
    GoodPl n (buildStep wl st iw) := by
  unfold buildStep
  cases hfbp : find_best_placement iw.2 st.1 wl with
  | none => exact hgood
  | some p =>
    rcases p with ⟨row, col, li, d⟩
    show GoodPl n (if posTruthy row col li d then
      place_word st.1 iw.2 li row col d st.2 (iw.1 + 2) else st)
    rw [if_pos (posTruthy_true row col li d)]
    obtain ⟨hmem, hhit⟩ := fbp_some_hit iw.2 st.1 wl (row, col, li, d) hfbp
    obtain ⟨hi, hr, hc⟩ := mem_scanOrder iw.2 st.1 row col li d hmem
    unfold hitAt at hhit
    rw [Bool.and_eq_true] at hhit
    obtain ⟨s, hs⟩ := Option.isSome_iff_exists.mp hhit.2
    unfold GoodPl at hgood ⊢
    obtain ⟨hws, hentries⟩ := hgood
    have hrn : row < n := by rw [← hws.1]; exact hr
    have hcn : col < n := by rw [← hws.1]; exact hc
    cases d with
    | H =>
      obtain ⟨hle, hlen0, hcompat⟩ := ivp_H_facts st.1 iw.2 li row col wl s hs
      have hlen : col - li + iw.2.length ≤ n := by rw [← hws.1]; exact hlen0
      refine ⟨?_, ?_⟩
      · show WellSized (place_word st.1 iw.2 li row col Dir.H st.2
          (iw.1 + 2)).1 n
        rw [place_word_grid_H]
        exact writeH_wellSized st.1 iw.2 n row (col - li) hws hrn iw.2.length
      · intro e he
        rw [place_word_pl_H] at he
        rcases mem_pyDictInsert st.2 (iw.1 + 2)
            (iw.2, (row, col - li), Dir.H) e he with hold | hnew
        · obtain ⟨hb, hrd⟩ := hentries e hold
          refine ⟨hb, ?_⟩
          show readWord (place_word st.1 iw.2 li row col Dir.H st.2
            (iw.1 + 2)).1 e.2 = e.2.1
          rw [place_word_grid_H]
          exact readWord_preserved st.1 _ e.2.1 e.2.2.1.1 e.2.2.1.2 e.2.2.2
            (writeH_only_blanks st.1 iw.2 n row (col - li) hws hrn hlen
              hcompat)
            hb hrd
        · subst hnew
          refine ⟨hblank, ?_⟩
          show readWord (place_word st.1 iw.2 li row col Dir.H st.2
            (iw.1 + 2)).1 (iw.2, (row, col - li), Dir.H) = iw.2
          rw [place_word_grid_H]
          refine readWord_of_cells _ iw.2 row (col - li) Dir.H ?_
          intro i2 hi2
          exact writeH_cell_in st.1 iw.2 n row (col - li) hws hrn
            iw.2.length hlen i2 hi2
    | V =>
      obtain ⟨hle, hlen0, hcompat⟩ := ivp_V_facts st.1 iw.2 li row col wl s hs
      have hlen : row - li + iw.2.length ≤ n := by rw [← hws.1]; exact hlen0
      refine ⟨?_, ?_⟩
      · show WellSized (place_word st.1 iw.2 li row col Dir.V st.2
          (iw.1 + 2)).1 n
        rw [place_word_grid_V]
        exact writeV_wellSized st.1 iw.2 n col (row - li) hws iw.2.length hlen
      · intro e he
        rw [place_word_pl_V] at he
        rcases mem_pyDictInsert st.2 (iw.1 + 2)
            (iw.2, (row - li, col), Dir.V) e he with hold | hnew
        · obtain ⟨hb, hrd⟩ := hentries e hold
          refine ⟨hb, ?_⟩
          show readWord (place_word st.1 iw.2 li row col Dir.V st.2
            (iw.1 + 2)).1 e.2 = e.2.1
          rw [place_word_grid_V]
          exact readWord_preserved st.1 _ e.2.1 e.2.2.1.1 e.2.2.1.2 e.2.2.2
            (writeV_only_blanks st.1 iw.2 n col (row - li) hws hcn hlen
              hcompat)
            hb hrd
        · subst hnew
          refine ⟨hblank, ?_⟩
          show readWord (place_word st.1 iw.2 li row col Dir.V st.2
            (iw.1 + 2)).1 (iw.2, (row - li, col), Dir.V) = iw.2
          rw [place_word_grid_V]
          refine readWord_of_cells _ iw.2 (row - li) col Dir.V ?_
          intro i2 hi2
          exact writeV_cell_in st.1 iw.2 n col (row - li) hws hcn
            iw.2.length hlen i2 hi2

/-- Horizontally placing a blank-free word that fits on a fresh grid
satisfies the build invariant. -/
theorem place_word_fresh_H (size row : Nat) (first : Str)
    (hrow : row < size) (hlen : first.length ≤ size) (hblank : ' ' ∉ first) :
    GoodPl size (place_word (init_grid size) first 0 row 0 Dir.H [] 1) := by
  have hlen2 : 0 - 0 + first.length ≤ size := by omega
  unfold GoodPl
  constructor
  · rw [place_word_grid_H]
    exact writeH_wellSized _ first size row (0 - 0)
      (init_grid_wellSized size) hrow first.length
  · intro e he
    rw [place_word_pl_H, pyDictInsert_nil] at he
    have he2 : e = (1, (first, (row, 0 - 0), Dir.H)) :=
      List.mem_singleton.mp he
    subst he2
    refine ⟨hblank, ?_⟩
    show readWord (place_word (init_grid size) first 0 row 0 Dir.H [] 1).1
      (first, (row, 0 - 0), Dir.H) = first
    rw [place_word_grid_H]
    refine readWord_of_cells _ first row (0 - 0) Dir.H ?_
    intro i hi
    exact writeH_cell_in (init_grid size) first size row (0 - 0)
      (init_grid_wellSized size) hrow first.length hlen2 i hi

/-- Vertically placing a blank-free word that fits on a fresh grid
satisfies the build invariant. -/
theorem place_word_fresh_V (size col : Nat) (first : Str)
    (hcol : col < size) (hlen : first.length ≤ size) (hblank : ' ' ∉ first) :
    GoodPl size (place_word (init_grid size) first 0 0 col Dir.V [] 1) := by
  have hlen2 : 0 - 0 + first.length ≤ size := by omega
  unfold GoodPl
  constructor
  · rw [place_word_grid_V]
    exact writeV_wellSized _ first size col (0 - 0)
      (init_grid_wellSized size) first.length hlen2
  · intro e he
    rw [place_word_pl_V, pyDictInsert_nil] at he
    have he2 : e = (1, (first, (0 - 0, col), Dir.V)) :=
      List.mem_singleton.mp he
    subst he2
    refine ⟨hblank, ?_⟩
    show readWord (place_word (init_grid size) first 0 0 col Dir.V [] 1).1
      (first, (0 - 0, col), Dir.V) = first
    rw [place_word_grid_V]
    refine readWord_of_cells _ first (0 - 0) col Dir.V ?_
    intro i hi
    exact writeV_cell_in (init_grid size) first size col (0 - 0)
      (init_grid_wellSized size) hcol first.length hlen2 i hi

/-- Placing the first word on a fresh grid satisfies the build
invariant. -/
theorem place_first_goodPl (first : Str) (size : Nat) (choice : Dir × Nat)
    (h0 : 0 < size) (hlen : first.length ≤ size) (hblank : ' ' ∉ first) :
    GoodPl size (place_first (init_grid size) first [] choice) := by
  have hglen : (init_grid size).length = size := (init_grid_wellSized size).1
  unfold place_first
  cases hch : choice.1 with
  | H =>
    show GoodPl size (place_word (init_grid size) first 0
      (choice.2 % (init_grid size).length) 0 Dir.H [] 1)
    rw [hglen]
    exact place_word_fresh_H size (choice.2 % size) first
      (Nat.mod_lt _ h0) hlen hblank
  | V =>
    show GoodPl size (place_word (init_grid size) first 0 0
      (choice.2 % (init_grid size).length) Dir.V [] 1)
    rw [hglen]
    exact place_word_fresh_V size (choice.2 % size) first
      (Nat.mod_lt _ h0) hlen hblank

/-- The second component of an enumerated pair is a member of the
underlying list. -/
theorem enumFrom_snd_mem {α : Type} :
    ∀ (l : List α) (n : Nat) (p : Nat × α), p ∈ l.enumFrom n → p.2 ∈ l := by
  intro l
  induction l with
  | nil => intro n p hp; cases hp
  | cons x xs ih =>
    intro n p hp
    have hp2 : p ∈ (n, x) :: xs.enumFrom (n + 1) := hp
    rcases List.mem_cons.mp hp2 with h | h
    · rw [h]; exact List.mem_cons_self x xs
    · exact List.mem_cons_of_mem x (ih (n + 1) p h)

/-- Folding the build step over any word sequence preserves the build
invariant. -/
theorem build_foldl_good (wl : List Str) (n : Nat)
    (hwl : ∀ w ∈ wl, ' ' ∉ w) :
    ∀ (l : List (Nat × Str)) (st : Grid × Placements),
      (∀ p ∈ l, p.2 ∈ wl) → GoodPl n st →
      GoodPl n (l.foldl (buildStep wl) st) := by
  intro l
  induction l with
  | nil => intro st _ h; exact h
  | cons p rest ih =>
    intro st hmem hst
    rw [List.foldl_cons]
    exact ih _ (fun q hq => hmem q (List.mem_cons_of_mem p hq))
      (buildStep_good wl n st p (hwl p.2 (hmem p (List.mem_cons_self p rest)))
        hst)

/-- A whole `build_crossword` run from a fresh grid that fits its first
word satisfies the build invariant: the grid stays well-sized and every
recorded placement entry reads back. -/
theorem build_crossword_goodPl (first : Str) (rest : List Str) (size : Nat)
    (choice : Dir × Nat) (h0 : 0 < size) (hlen : first.length ≤ size)
    (hwl : ∀ w ∈ first :: rest, ' ' ∉ w) :
    GoodPl size (build_crossword (init_grid size) (first :: rest) choice) := by
  unfold build_crossword
  show GoodPl size ((rest.enum).foldl (buildStep (first :: rest))
    (place_first (init_grid size) first [] choice))
  refine build_foldl_good (first :: rest) size hwl rest.enum _ ?_
    (place_first_goodPl first size choice h0 hlen
      (hwl first (List.mem_cons_self first rest)))
  intro p hp
  exact List.mem_cons_of_mem first (enumFrom_snd_mem rest 0 p hp)

/-- One attempt of `generate`'s loop, written out as nested conditionals
on the built crossword. -/
theorem genStep_eq (swl : List Str) (rng : Rng) (st : Candidates × Nat)
    (i : Nat) :
    genStep swl rng st i =
      if (build_crossword (init_grid st.2) swl (rng i)).2.length = swl.length
      then (pyDictInsert st.1
        (count_blanks (build_crossword (init_grid st.2) swl (rng i)).1)
        (build_crossword (init_grid st.2) swl (rng i)), st.2)
      else if i % 5 = 0 then (st.1, st.2 + 1) else (st.1, st.2) := by
  simp only [genStep]

/-- The attempt loop's invariant: the grid size never shrinks below its
initial value and every recorded candidate is complete (placement count
equals the sorted word count) with every entry reading back off its
grid. -/
theorem genLoop_goodPl (first : Str) (rest : List Str) (rng : Rng)
    (sz0 : Nat) (h0 : 0 < sz0) (hlen : first.length ≤ sz0)
    (hwl : ∀ w ∈ first :: rest, ' ' ∉ w) :
    ∀ n, sz0 ≤ (genLoop (first :: rest) rng sz0 n).2 ∧
      ∀ e ∈ (genLoop (first :: rest) rng sz0 n).1,
        e.2.2.length = (first :: rest).length ∧
        ∀ en ∈ e.2.2, readWord e.2.1 en.2 = en.2.1 := by
  intro n
  induction n with
  | zero =>
    refine ⟨le_refl sz0, ?_⟩
    intro e he
    have he2 : e ∈ ([] : Candidates) := he
    cases he2
  | succ n ih =>
    obtain ⟨ihsz, ihinv⟩ := ih
    rw [genLoop_succ, genStep_eq]
    split_ifs with hcomp h5
    · refine ⟨ihsz, ?_⟩
      intro e he
      rcases mem_pyDictInsert _ _ _ e he with hold | hnew
      · exact ihinv e hold
      · have hgood := build_crossword_goodPl first rest
          (genLoop (first :: rest) rng sz0 n).2 (rng n)
          (lt_of_lt_of_le h0 ihsz) (le_trans hlen ihsz) hwl
        unfold GoodPl at hgood
        subst hnew
        refine ⟨hcomp, ?_⟩
        intro en hen
        exact (hgood.2 en hen).2
    · exact ⟨le_trans ihsz (Nat.le_succ _), ihinv⟩
    · exact ⟨ihsz, ihinv⟩

/-- Inserting a word into the length-sorted list grows it by one. -/
theorem insertByLenDesc_length (w : Str) :
    ∀ l : List Str, (insertByLenDesc w l).length = l.length + 1 := by
  intro l
  induction l with
  | nil => rfl
  | cons x xs ih =>
    unfold insertByLenDesc
    split_ifs
    · rfl
    · simp only [List.length_cons, ih]

/-- Sorting the word list preserves its length. -/
theorem sortWords_length (wl : List Str) :
    (sortWords wl).length = wl.length := by
  unfold sortWords
  induction wl with
  | nil => rfl
  | cons x xs ih =>
    rw [List.foldr_cons, insertByLenDesc_length, ih, List.length_cons]

/-- Members of the insertion come from the inserted word or the list. -/
theorem mem_insertByLenDesc (w x : Str) :
    ∀ l : List Str, x ∈ insertByLenDesc w l → x = w ∨ x ∈ l := by
  intro l
  induction l with
  | nil =>
    intro h
    exact Or.inl (List.mem_singleton.mp h)
  | cons y ys ih =>
    intro h
    unfold insertByLenDesc at h
    split_ifs at h
    · rcases List.mem_cons.mp h with h2 | h2
      · exact Or.inl h2
      · exact Or.inr h2
    · rcases List.mem_cons.mp h with h2 | h2
      · exact Or.inr (List.mem_cons.mpr (Or.inl h2))
      · rcases ih h2 with h3 | h3
        · exact Or.inl h3
        · exact Or.inr (List.mem_cons.mpr (Or.inr h3))

/-- Every member of the sorted word list is an input word. -/
theorem mem_sortWords (wl : List Str) (x : Str) :
    x ∈ sortWords wl → x ∈ wl := by
  induction wl with
  | nil => intro h; exact absurd h (List.not_mem_nil x)
  | cons y ys ih =>
    intro h
    have h2 : x ∈ insertByLenDesc y (sortWords ys) := h
    rcases mem_insertByLenDesc y x (sortWords ys) h2 with h3 | h3
    · rw [h3]; exact List.mem_cons_self y ys
    · exact List.mem_cons_of_mem y (ih h3)

/-- C5: for a word list of non-empty blank-free words, whenever
`generate` returns a `(grid, placements)` pair, the placement map has
exactly as many entries as the input list, and every entry's word, read
off the grid for its length starting at its anchor in its direction,
reproduces the word exactly (round trip). -/
theorem c5_placements_round_trip (wordlist : List Str) (rng : Rng)
    (g : Grid) (pl : Placements)
    (hwords : ∀ w ∈ wordlist, w ≠ [] ∧ ' ' ∉ w)
    (h : generate wordlist rng = .ok (some (g, pl))) :
    pl.length = wordlist.length ∧ ∀ e ∈ pl, readWord g e.2 = e.2.1 := by
  cases hs : sortWords wordlist with
  | nil =>
    unfold generate at h
    rw [hs] at h
    cases h
  | cons w0 rest =>
    unfold generate at h
    rw [hs] at h
    have h2 : generateFrom (w0 :: rest) rng w0.length = .ok (some (g, pl)) := h
    unfold generateFrom at h2
    cases hsel : selectMin (genLoop (w0 :: rest) rng w0.length 100).1 with
    | none =>
      rw [hsel] at h2
      simp at h2
    | some v =>
      rw [hsel] at h2
      rcases v with ⟨cw, plv⟩
      have hgp : cw = g ∧ plv = pl := by
        have h3 : (Except.ok (some (cw, plv))
            : Except PyErr (Option (Grid × Placements)))
            = .ok (some (g, pl)) := h2
        simpa using h3
      obtain ⟨k, hkmem, _⟩ := selectMin_spec _ _ hsel
      have hw0 : w0 ∈ wordlist := by
        refine mem_sortWords wordlist w0 ?_
        rw [hs]
        exact List.mem_cons_self w0 rest
      have h0 : 0 < w0.length := List.length_pos.mpr (hwords w0 hw0).1
      have hwl : ∀ w ∈ w0 :: rest, ' ' ∉ w := by
        intro w hw
        refine (hwords w (mem_sortWords wordlist w ?_)).2
        rw [hs]
        exact hw
      obtain ⟨hsz, hinv⟩ :=
        genLoop_goodPl w0 rest rng w0.length h0 (le_refl _) hwl 100
      obtain ⟨hlenk, hread⟩ := hinv (k, (cw, plv)) hkmem
      constructor
      · rw [← hgp.2, hlenk, ← hs, sortWords_length]
      · intro e he
        rw [← hgp.1]
        exact hread e (by rw [hgp.2]; exact he)

/-- C5 witness: the concrete `generate ["ab"]` run returns the one-entry
placement map whose word reads back off the returned grid. -/
theorem c5_witness :
    (∀ w ∈ abInput, w ≠ [] ∧ ' ' ∉ w) ∧
    (abPlacements.length = abInput.length ∧
      ∀ e ∈ abPlacements, readWord abGrid e.2 = e.2.1) :=
  ⟨by decide, c5_placements_round_trip abInput constRngH abGrid abPlacements
    (by decide) ab_generate⟩


/-! ## Claim C8 (confirmed): all grid accesses stay in bounds -/

/-- Membership in a guarded trace yields the guard. -/
theorem mem_ite_nil {α : Type} {c : Prop} [Decidable c] {A : List α}
    {p : α} (h : p ∈ (if c then A else ([] : List α))) : c ∧ p ∈ A := by
  split_ifs at h with hc
  · exact ⟨hc, h⟩
  · exact absurd h (List.not_mem_nil p)

/-- Membership in a negatively guarded trace yields the guard's
negation. -/
theorem mem_nil_ite {α : Type} {c : Prop} [Decidable c] {A : List α}
    {p : α} (h : p ∈ (if c then ([] : List α) else A)) : ¬c ∧ p ∈ A := by
  split_ifs at h with hc
  · exact absurd h (List.not_mem_nil p)
  · exact ⟨hc, h⟩

/-- Membership in a two-sided conditional trace is membership in a
branch. -/
theorem mem_ite_or {α : Type} {c : Prop} [Decidable c] {A B : List α}
    {p : α} (h : p ∈ (if c then A else B)) : p ∈ A ∨ p ∈ B := by
  split_ifs at h
  · exact Or.inl h
  · exact Or.inr h

/-- The upward scan only reads rows at or above the (in-bounds) start. -/
theorem lookUpAcc_bounded (g : Grid) (row col n : Nat) (hrow : row < n)
    (hcol : col < n) :
    ∀ l : List Nat, ∀ p ∈ lookUpAcc g row col l, p.1 < n ∧ p.2 < n := by
  intro l
  induction l with
  | nil => intro p hp; cases hp
  | cons i rest ih =>
    intro p hp
    unfold lookUpAcc at hp
    split_ifs at hp with h1 h2
    · have := List.mem_singleton.mp hp
      subst this
      exact ⟨by omega, hcol⟩
    · rcases List.mem_cons.mp hp with hp | hp
      · subst hp
        exact ⟨by omega, hcol⟩
      · exact ih p hp
    · cases hp

/-- The downward scan only reads rows its boundary guard admits. -/
theorem lookDownAcc_bounded (g : Grid) (row col n : Nat)
    (hn : g.length = n) (hcol : col < n) :
    ∀ l : List Nat, ∀ p ∈ lookDownAcc g row col l, p.1 < n ∧ p.2 < n := by
  intro l
  induction l with
  | nil => intro p hp; cases hp
  | cons i rest ih =>
    intro p hp
    unfold lookDownAcc at hp
    split_ifs at hp with h1 h2
    · have := List.mem_singleton.mp hp
      subst this
      exact ⟨by omega, hcol⟩
    · rcases List.mem_cons.mp hp with hp | hp
      · subst hp
        exact ⟨by omega, hcol⟩
      · exact ih p hp
    · cases hp

/-- The leftward scan only reads columns at or before the start. -/
theorem lookLeftAcc_bounded (g : Grid) (row col n : Nat) (hrow : row < n)
    (hcol : col < n) :
    ∀ l : List Nat, ∀ p ∈ lookLeftAcc g row col l, p.1 < n ∧ p.2 < n := by
  intro l
  induction l with
  | nil => intro p hp; cases hp
  | cons i rest ih =>
    intro p hp
    unfold lookLeftAcc at hp
    split_ifs at hp with h1 h2
    · have := List.mem_singleton.mp hp
      subst this
      exact ⟨hrow, by omega⟩
    · rcases List.mem_cons.mp hp with hp | hp
      · subst hp
        exact ⟨hrow, by omega⟩
      · exact ih p hp
    · cases hp

/-- The rightward scan only reads columns its boundary guard admits. -/
theorem lookRightAcc_bounded (g : Grid) (row col n : Nat)
    (hn : g.length = n) (hrow : row < n) :
    ∀ l : List Nat, ∀ p ∈ lookRightAcc g row col l, p.1 < n ∧ p.2 < n := by
  intro l
  induction l with
  | nil => intro p hp; cases hp
  | cons i rest ih =>
    intro p hp
    unfold lookRightAcc at hp
    split_ifs at hp with h1 h2
    · have := List.mem_singleton.mp hp
      subst this
      exact ⟨hrow, by omega⟩
    · rcases List.mem_cons.mp hp with hp | hp
      · subst hp
        exact ⟨hrow, by omega⟩
      · exact ih p hp
    · cases hp

/-- Every access of the adjacency checker started at an in-bounds cell is
in bounds. -/
theorem adjAcc_bounded (g : Grid) (row col : Nat) (d : Dir)
    (wl : List Str) (n : Nat) (hn : g.length = n) (hrow : row < n)
    (hcol : col < n) :
    ∀ p ∈ adjAcc g row col d wl, p.1 < n ∧ p.2 < n := by
  intro p hp
  unfold adjAcc at hp
  rcases List.mem_cons.mp hp with hp | hp
  · subst hp
    exact ⟨hrow, hcol⟩
  · cases d with
    | V =>
      rcases List.mem_append.mp hp with hp | hp
      · exact lookUpAcc_bounded g row col n hrow hcol _ p hp
      · exact lookDownAcc_bounded g row col n hn hcol _ p hp
    | H =>
      rcases List.mem_append.mp hp with hp | hp
      · exact lookLeftAcc_bounded g row col n hrow hcol _ p hp
      · exact lookRightAcc_bounded g row col n hn hrow _ p hp

/-- The "row below" check accesses stay in bounds. -/
theorem ivpBelowHAcc_bounded (g : Grid) (w : Str)
    (letter_idx row start : Nat) (wl : List Str) (i n : Nat)
    (hn : g.length = n) (hsi : start + i < n) :
    ∀ p ∈ ivpBelowHAcc g w letter_idx row start wl i,
      p.1 < n ∧ p.2 < n := by
  intro p hp
  unfold ivpBelowHAcc at hp
  rcases List.mem_append.mp hp with hp | hp
  · obtain ⟨hg, hp⟩ := mem_ite_nil hp
    have := List.mem_singleton.mp hp
    subst this
    exact ⟨by omega, hsi⟩
  · obtain ⟨hg, hp⟩ := mem_ite_nil hp
    obtain ⟨hg1, -, -⟩ := hg
    exact adjAcc_bounded g (row + 1) (start + i) Dir.V wl n hn (by omega)
      hsi p hp

/-- One horizontal validator iteration's accesses stay in bounds. -/
theorem ivpStepHAcc_bounded (g : Grid) (w : Str)
    (letter_idx row start : Nat) (wl : List Str) (i n : Nat)
    (hn : g.length = n) (hrow : row < n) (hsi : start + i < n) :
    ∀ p ∈ ivpStepHAcc g w letter_idx row start wl i,
      p.1 < n ∧ p.2 < n := by
  intro p hp
  unfold ivpStepHAcc at hp
  rcases List.mem_cons.mp hp with hp | hp
  · subst hp
    exact ⟨hrow, hsi⟩
  · obtain ⟨-, hp⟩ := mem_nil_ite hp
    rcases List.mem_append.mp hp with hp | hp
    · obtain ⟨-, hp⟩ := mem_ite_nil hp
      have := List.mem_singleton.mp hp
      subst this
      exact ⟨by omega, hsi⟩
    · rcases mem_ite_or hp with hp | hp
      · rcases List.mem_append.mp hp with hp | hp
        · exact adjAcc_bounded g (row - 1) (start + i) Dir.V wl n hn
            (by omega) hsi p hp
        · obtain ⟨-, hp⟩ := mem_ite_nil hp
          exact ivpBelowHAcc_bounded g w letter_idx row start wl i n hn
            hsi p hp
      · exact ivpBelowHAcc_bounded g w letter_idx row start wl i n hn
          hsi p hp

/-- The "column right" check accesses stay in bounds. -/
theorem ivpRightVAcc_bounded (g : Grid) (w : Str)
    (letter_idx col start : Nat) (wl : List Str) (i n : Nat)
    (hn : g.length = n) (hsi : start + i < n) :
    ∀ p ∈ ivpRightVAcc g w letter_idx col start wl i,
      p.1 < n ∧ p.2 < n := by
  intro p hp
  unfold ivpRightVAcc at hp
  rcases List.mem_append.mp hp with hp | hp
  · obtain ⟨hg, hp⟩ := mem_ite_nil hp
    have := List.mem_singleton.mp hp
    subst this
    exact ⟨hsi, by omega⟩
  · obtain ⟨hg, hp⟩ := mem_ite_nil hp
    obtain ⟨hg1, -, -⟩ := hg
    exact adjAcc_bounded g (start + i) (col + 1) Dir.H wl n hn hsi
      (by omega) p hp

/-- One vertical validator iteration's accesses stay in bounds. -/
theorem ivpStepVAcc_bounded (g : Grid) (w : Str)
    (letter_idx col start : Nat) (wl : List Str) (i n : Nat)
    (hn : g.length = n) (hcol : col < n) (hsi : start + i < n) :
    ∀ p ∈ ivpStepVAcc g w letter_idx col start wl i,
      p.1 < n ∧ p.2 < n := by
  intro p hp
  unfold ivpStepVAcc at hp
  rcases List.mem_cons.mp hp with hp | hp
  · subst hp
    exact ⟨hsi, hcol⟩
  · obtain ⟨-, hp⟩ := mem_nil_ite hp
    rcases List.mem_append.mp hp with hp | hp
    · obtain ⟨-, hp⟩ := mem_ite_nil hp
      have := List.mem_singleton.mp hp
      subst this
      exact ⟨hsi, by omega⟩
    · rcases mem_ite_or hp with hp | hp
      · rcases List.mem_append.mp hp with hp | hp
        · exact adjAcc_bounded g (start + i) (col - 1) Dir.H wl n hn hsi
            (by omega) p hp
        · obtain ⟨-, hp⟩ := mem_ite_nil hp
          exact ivpRightVAcc_bounded g w letter_idx col start wl i n hn
            hsi p hp
      · exact ivpRightVAcc_bounded g w letter_idx col start wl i n hn
          hsi p hp

/-- Bounded iterations keep the whole per-letter loop trace bounded. -/
theorem ivpLoopAcc_bounded (P : Nat × Nat → Prop)
    (step : Nat → Nat → Option Nat) (stepAcc : Nat → List (Nat × Nat)) :
    ∀ (l : List Nat) (acc : Nat), (∀ i ∈ l, ∀ p ∈ stepAcc i, P p) →
      ∀ p ∈ ivpLoopAcc step stepAcc acc l, P p := by
  intro l
  induction l with
  | nil => intro acc h p hp; cases hp
  | cons i rest ih =>
    intro acc h p hp
    unfold ivpLoopAcc at hp
    rcases List.mem_append.mp hp with hp | hp
    · exact h i (List.mem_cons_self i rest) p hp
    · cases hstep : step acc i with
      | none =>
        rw [hstep] at hp
        have hp2 : p ∈ ([] : List (Nat × Nat)) := hp
        cases hp2
      | some a2 =>
        rw [hstep] at hp
        have hp2 : p ∈ ivpLoopAcc step stepAcc a2 rest := hp
        exact ih a2 (fun j hj => h j (List.mem_cons_of_mem i hj)) p hp2

/-- Every access of the validator, called on an in-bounds cell, is in
bounds: the bounds check stops out-of-range spans before any read. -/
theorem ivpAcc_bounded (g : Grid) (w : Str) (letter_idx row col : Nat)
    (d : Dir) (wl : List Str) (n : Nat) (hn : g.length = n)
    (hrow : row < n) (hcol : col < n) :
    ∀ p ∈ ivpAcc g w letter_idx row col d wl, p.1 < n ∧ p.2 < n := by
  intro p hp
  cases d with
  | H =>
    unfold ivpAcc at hp
    by_cases hb : (col : Int) - letter_idx < 0 ∨
        (col : Int) - letter_idx + w.length > g.length
    · rw [if_pos hb] at hp
      cases hp
    · rw [if_neg hb] at hp
      push_neg at hb
      have hle : letter_idx ≤ col := by omega
      have hlen : col - letter_idx + w.length ≤ n := by omega
      rcases List.mem_append.mp hp with hp | hp
      · obtain ⟨hg, hp⟩ := mem_ite_nil hp
        have := List.mem_singleton.mp hp
        subst this
        exact ⟨hrow, by omega⟩
      · obtain ⟨-, hp⟩ := mem_nil_ite hp
        rcases List.mem_append.mp hp with hp | hp
        · obtain ⟨hg, hp⟩ := mem_ite_nil hp
          have := List.mem_singleton.mp hp
          subst this
          exact ⟨hrow, by omega⟩
        · obtain ⟨-, hp⟩ := mem_nil_ite hp
          refine ivpLoopAcc_bounded (fun q => q.1 < n ∧ q.2 < n) _ _
            (List.range w.length) 0 ?_ p hp
          intro j hj q hq
          have hjw := List.mem_range.mp hj
          exact ivpStepHAcc_bounded g w letter_idx row (col - letter_idx)
            wl j n hn hrow (by omega) q hq
  | V =>
    unfold ivpAcc at hp
    by_cases hb : (row : Int) - letter_idx < 0 ∨
        (row : Int) - letter_idx + w.length > g.length
    · rw [if_pos hb] at hp
      cases hp
    · rw [if_neg hb] at hp
      push_neg at hb
      have hle : letter_idx ≤ row := by omega
      have hlen : row - letter_idx + w.length ≤ n := by omega
      rcases List.mem_append.mp hp with hp | hp
      · obtain ⟨hg, hp⟩ := mem_ite_nil hp
        have := List.mem_singleton.mp hp
        subst this
        exact ⟨by omega, hcol⟩
      · obtain ⟨-, hp⟩ := mem_nil_ite hp
        rcases List.mem_append.mp hp with hp | hp
        · obtain ⟨hg, hp⟩ := mem_ite_nil hp
          have := List.mem_singleton.mp hp
          subst this
          exact ⟨by omega, hcol⟩
        · obtain ⟨-, hp⟩ := mem_nil_ite hp
          refine ivpLoopAcc_bounded (fun q => q.1 < n ∧ q.2 < n) _ _
            (List.range w.length) 0 ?_ p hp
          intro j hj q hq
          have hjw := List.mem_range.mp hj
          exact ivpStepVAcc_bounded g w letter_idx col (row - letter_idx)
            wl j n hn hcol (by omega) q hq

/-- Every access of the placement search is in bounds: cells come from
the row-major scan, validations start at scanned cells. -/
theorem fbpAcc_bounded (w : Str) (g : Grid) (wl : List Str) (n : Nat)
    (hn : g.length = n) :
    ∀ p ∈ fbpAcc w g wl, p.1 < n ∧ p.2 < n := by
  intro p hp
  unfold fbpAcc at hp
  rcases List.mem_flatMap.mp hp with ⟨i, hi, hp⟩
  rcases List.mem_flatMap.mp hp with ⟨row, hrowm, hp⟩
  rcases List.mem_flatMap.mp hp with ⟨col, hcolm, hp⟩
  have hrn : row < n := by have := List.mem_range.mp hrowm; omega
  have hcn : col < n := by have := List.mem_range.mp hcolm; omega
  unfold fbpCellAcc at hp
  rcases List.mem_cons.mp hp with hp | hp
  · subst hp
    exact ⟨hrn, hcn⟩
  · obtain ⟨-, hp⟩ := mem_ite_nil hp
    rcases List.mem_append.mp hp with hp | hp
    · exact ivpAcc_bounded g w i row col Dir.H wl n hn hrn hcn p hp
    · exact ivpAcc_bounded g w i row col Dir.V wl n hn hrn hcn p hp

/-- The build loop keeps the evolving grid well-sized: an approved
placement writes inside the validated span. -/
theorem buildStep_wellSized (wl : List Str) (n : Nat)
    (st : Grid × Placements) (iw : Nat × Str) (hws : WellSized st.1 n) :
    WellSized (buildStep wl st iw).1 n := by
  unfold buildStep
  cases hfbp : find_best_placement iw.2 st.1 wl with
  | none => exact hws
  | some p =>
    rcases p with ⟨row, col, li, d⟩
    show WellSized (if posTruthy row col li d then
      place_word st.1 iw.2 li row col d st.2 (iw.1 + 2) else st).1 n
    rw [if_pos (posTruthy_true row col li d)]
    obtain ⟨hmem, hhit⟩ := fbp_some_hit iw.2 st.1 wl (row, col, li, d) hfbp
    obtain ⟨hi, hr, hc⟩ := mem_scanOrder iw.2 st.1 row col li d hmem
    unfold hitAt at hhit
    rw [Bool.and_eq_true] at hhit
    obtain ⟨s, hs⟩ := Option.isSome_iff_exists.mp hhit.2
    have hrn : row < n := by rw [← hws.1]; exact hr
    cases d with
    | H =>
      rw [place_word_grid_H]
      exact writeH_wellSized st.1 iw.2 n row (col - li) hws hrn iw.2.length
    | V =>
      obtain ⟨hle, hlen0, -⟩ := ivp_V_facts st.1 iw.2 li row col wl s hs
      rw [place_word_grid_V]
      refine writeV_wellSized st.1 iw.2 n col (row - li) hws iw.2.length ?_
      rw [← hws.1]
      exact hlen0

/-- One build iteration's accesses stay inside the current grid. -/
theorem buildStepAcc_bounded (wl : List Str) (n : Nat)
    (st : Grid × Placements) (iw : Nat × Str) (hws : WellSized st.1 n) :
    ∀ p ∈ buildStepAcc wl st iw, p.1 < n ∧ p.2 < n := by
  intro p hp
  unfold buildStepAcc at hp
  rcases List.mem_append.mp hp with hp | hp
  · exact fbpAcc_bounded iw.2 st.1 wl n hws.1 p hp
  · cases hfbp : find_best_placement iw.2 st.1 wl with
    | none =>
      rw [hfbp] at hp
      have hp2 : p ∈ ([] : List (Nat × Nat)) := hp
      cases hp2
    | some q =>
      rw [hfbp] at hp
      rcases q with ⟨row, col, li, d⟩
      have hp2 : p ∈ (if posTruthy row col li d then
          place_wordAcc iw.2 li row col d else []) := hp
      rw [if_pos (posTruthy_true row col li d)] at hp2
      obtain ⟨hmem, hhit⟩ := fbp_some_hit iw.2 st.1 wl (row, col, li, d) hfbp
      obtain ⟨hi, hr, hc⟩ := mem_scanOrder iw.2 st.1 row col li d hmem
      unfold hitAt at hhit
      rw [Bool.and_eq_true] at hhit
      obtain ⟨s, hs⟩ := Option.isSome_iff_exists.mp hhit.2
      have hws1 := hws.1
      cases d with
      | H =>
        obtain ⟨hle, hlen, -⟩ := ivp_H_facts st.1 iw.2 li row col wl s hs
        have hp3 : p ∈ (List.range iw.2.length).map
            (fun i => (row, col - li + i)) := hp2
        rcases List.mem_map.mp hp3 with ⟨j, hj, hpe⟩
        subst hpe
        have hjr := List.mem_range.mp hj
        refine ⟨?_, ?_⟩
        · show row < n
          omega
        · show col - li + j < n
          omega
      | V =>
        obtain ⟨hle, hlen, -⟩ := ivp_V_facts st.1 iw.2 li row col wl s hs
        have hp3 : p ∈ (List.range iw.2.length).map
            (fun i => (row - li + i, col)) := hp2
        rcases List.mem_map.mp hp3 with ⟨j, hj, hpe⟩
        subst hpe
        have hjr := List.mem_range.mp hj
        refine ⟨?_, ?_⟩
        · show row - li + j < n
          omega
        · show col < n
          omega

/-- The build fold keeps the grid well-sized. -/
theorem buildFold_wellSized (wl : List Str) (n : Nat) :
    ∀ (l : List (Nat × Str)) (st : Grid × Placements), WellSized st.1 n →
      WellSized ((l.foldl (buildStep wl) st)).1 n := by
  intro l
  induction l with
  | nil => intro st h; exact h
  | cons iw rest ih =>
    intro st h
    rw [List.foldl_cons]
    exact ih _ (buildStep_wellSized wl n st iw h)

/-- Placing the first word keeps the fresh grid well-sized. -/
theorem place_first_wellSized (first : Str) (size : Nat)
    (choice : Dir × Nat) (h0 : 0 < size) (hlen : first.length ≤ size) :
    WellSized (place_first (init_grid size) first [] choice).1 size := by
  unfold place_first
  cases hch : choice.1 with
  | H =>
    show WellSized (place_word (init_grid size) first 0
      (choice.2 % (init_grid size).length) 0 Dir.H [] 1).1 size
    rw [place_word_grid_H, (init_grid_wellSized size).1]
    exact writeH_wellSized _ first size (choice.2 % size) (0 - 0)
      (init_grid_wellSized size) (Nat.mod_lt _ h0) first.length
  | V =>
    show WellSized (place_word (init_grid size) first 0 0
      (choice.2 % (init_grid size).length) Dir.V [] 1).1 size
    rw [place_word_grid_V, (init_grid_wellSized size).1]
    refine writeV_wellSized _ first size (choice.2 % size) (0 - 0)
      (init_grid_wellSized size) first.length ?_
    omega

/-- A whole build keeps the grid well-sized. -/
theorem build_crossword_wellSized (first : Str) (rest : List Str)
    (size : Nat) (choice : Dir × Nat) (h0 : 0 < size)
    (hlen : first.length ≤ size) :
    WellSized (build_crossword (init_grid size) (first :: rest) choice).1
      size := by
  unfold build_crossword
  show WellSized ((rest.enum).foldl (buildStep (first :: rest))
    (place_first (init_grid size) first [] choice)).1 size
  exact buildFold_wellSized (first :: rest) size rest.enum _
    (place_first_wellSized first size choice h0 hlen)

/-- The access trace accumulated by the build fold stays bounded. -/
theorem buildFoldAcc_bounded (wl : List Str) (n : Nat) :
    ∀ (l : List (Nat × Str)) (st : Grid × Placements)
      (tr : List (Nat × Nat)),
      WellSized st.1 n → (∀ p ∈ tr, p.1 < n ∧ p.2 < n) →
      ∀ p ∈ (l.foldl
        (fun (q : (Grid × Placements) × List (Nat × Nat)) iw =>
          (buildStep wl q.1 iw, q.2 ++ buildStepAcc wl q.1 iw))
        (st, tr)).2, p.1 < n ∧ p.2 < n := by
  intro l
  induction l with
  | nil => intro st tr hws htr p hp; exact htr p hp
  | cons iw rest ih =>
    intro st tr hws htr p hp
    rw [List.foldl_cons] at hp
    refine ih (buildStep wl st iw) (tr ++ buildStepAcc wl st iw)
      (buildStep_wellSized wl n st iw hws) ?_ p hp
    intro q hq
    rcases List.mem_append.mp hq with hq | hq
    · exact htr q hq
    · exact buildStepAcc_bounded wl n st iw hws q hq

/-- Every access of one `build_crossword` run on a fresh grid that fits
its first word is in bounds. -/
theorem buildAcc_bounded (first : Str) (rest : List Str) (size : Nat)
    (choice : Dir × Nat) (h0 : 0 < size) (hlen : first.length ≤ size) :
    ∀ p ∈ buildAcc (init_grid size) (first :: rest) choice,
      p.1 < size ∧ p.2 < size := by
  rcases choice with ⟨cd, cp⟩
  intro p hp
  unfold buildAcc at hp
  rcases List.mem_append.mp hp with hp | hp
  · have hg : (init_grid size).length = size := (init_grid_wellSized size).1
    cases cd with
    | H =>
      have hp3 : p ∈ (List.range first.length).map
          (fun i => (cp % (init_grid size).length, 0 - 0 + i)) := hp
      rcases List.mem_map.mp hp3 with ⟨j, hj, hpe⟩
      subst hpe
      have hjr := List.mem_range.mp hj
      refine ⟨?_, ?_⟩
      · show cp % (init_grid size).length < size
        rw [hg]
        exact Nat.mod_lt _ h0
      · show 0 - 0 + j < size
        omega
    | V =>
      have hp3 : p ∈ (List.range first.length).map
          (fun i => (0 - 0 + i, cp % (init_grid size).length)) := hp
      rcases List.mem_map.mp hp3 with ⟨j, hj, hpe⟩
      subst hpe
      have hjr := List.mem_range.mp hj
      refine ⟨?_, ?_⟩
      · show 0 - 0 + j < size
        omega
      · show cp % (init_grid size).length < size
        rw [hg]
        exact Nat.mod_lt _ h0
  · exact buildFoldAcc_bounded (first :: rest) size rest.enum
      (place_first (init_grid size) first [] (cd, cp)) []
      (place_first_wellSized first size (cd, cp) h0 hlen)
      (fun q hq => absurd hq (List.not_mem_nil q)) p hp

/-- Counting blanks touches every cell of the square grid, all in
bounds. -/
theorem cbAcc_bounded (g : Grid) (n : Nat) (hn : g.length = n) :
    ∀ p ∈ cbAcc g, p.1 < n ∧ p.2 < n := by
  intro p hp
  unfold cbAcc at hp
  rcases List.mem_flatMap.mp hp with ⟨row, hrowm, hp⟩
  rcases List.mem_map.mp hp with ⟨col, hcolm, hpe⟩
  subst hpe
  have h1 := List.mem_range.mp hrowm
  have h2 := List.mem_range.mp hcolm
  exact ⟨by omega, by omega⟩

/-- The attempt loop never shrinks the grid size below its start. -/
theorem genLoop_size_ge (swl : List Str) (rng : Rng) (sz0 : Nat) :
    ∀ n, sz0 ≤ (genLoop swl rng sz0 n).2 := by
  intro n
  induction n with
  | zero => exact le_refl sz0
  | succ n ih =>
    rw [genLoop_succ, genStep_eq]
    split_ifs
    · exact ih
    · exact le_trans ih (Nat.le_succ _)
    · exact ih

/-- C8: for a non-empty word list of non-empty words, `generate` never
raises — it returns a normal result for every random trace — and every
grid access any attempt performs (in the placement search, the validator,
the adjacency checks, the word writes, and the blank count) uses row and
column indices inside `[0, size)` of that attempt's grid. -/
theorem c8_accesses_in_bounds (wordlist : List Str) (rng : Rng)
    (hne : wordlist ≠ []) (hwords : ∀ w ∈ wordlist, w ≠ []) :
    (∃ r, generate wordlist rng = .ok r) ∧
    ∀ i : Nat, ∀ p ∈ attemptAcc wordlist rng i,
      p.1 < gridSizeAt wordlist rng i ∧ p.2 < gridSizeAt wordlist rng i := by
  cases hs : sortWords wordlist with
  | nil =>
    exfalso
    apply hne
    have hlen := sortWords_length wordlist
    rw [hs] at hlen
    have h0 : wordlist.length = 0 := by simpa using hlen.symm
    exact List.length_eq_zero.mp h0
  | cons w0 rest =>
    have hw0len : 0 < w0.length := by
      refine List.length_pos.mpr ?_
      refine hwords w0 (mem_sortWords wordlist w0 ?_)
      rw [hs]
      exact List.mem_cons_self w0 rest
    constructor
    · unfold generate
      rw [hs]
      cases hsel : selectMin (genLoop (w0 :: rest) rng w0.length 100).1 with
      | none =>
        refine ⟨none, ?_⟩
        show generateFrom (w0 :: rest) rng w0.length = Except.ok none
        unfold generateFrom
        rw [hsel]
      | some v =>
        rcases v with ⟨cw, pl⟩
        refine ⟨some (cw, pl), ?_⟩
        show generateFrom (w0 :: rest) rng w0.length
          = Except.ok (some (cw, pl))
        unfold generateFrom
        rw [hsel]
    · intro i p hp
      unfold attemptAcc at hp
      rw [hs] at hp
      have hp2 : p ∈ genStepAcc (w0 :: rest) rng
          (genLoop (w0 :: rest) rng w0.length i) i := hp
      have hsz : gridSizeAt wordlist rng i
          = (genLoop (w0 :: rest) rng w0.length i).2 := by
        unfold gridSizeAt
        rw [hs]
        rfl
      rw [hsz]
      have hge : w0.length ≤ (genLoop (w0 :: rest) rng w0.length i).2 :=
        genLoop_size_ge (w0 :: rest) rng w0.length i
      have h0 : 0 < (genLoop (w0 :: rest) rng w0.length i).2 :=
        lt_of_lt_of_le hw0len hge
      unfold genStepAcc at hp2
      rcases List.mem_append.mp hp2 with hp3 | hp3
      · exact buildAcc_bounded w0 rest _ (rng i) h0 hge p hp3
      · obtain ⟨hcomp, hp3⟩ := mem_ite_nil hp3
        have hws := build_crossword_wellSized w0 rest
          (genLoop (w0 :: rest) rng w0.length i).2 (rng i) h0 hge
        exact cbAcc_bounded _ _ hws.1 p hp3

/-- C8 witness: the concrete `generate ["ab"]` run returns normally and
keeps every access of every attempt inside the current grid. -/
theorem c8_witness :
    (∃ r, generate abInput constRngH = .ok r) ∧
    ∀ i : Nat, ∀ p ∈ attemptAcc abInput constRngH i,
      p.1 < gridSizeAt abInput constRngH i ∧
      p.2 < gridSizeAt abInput constRngH i :=
  c8_accesses_in_bounds abInput constRngH (by decide) (by decide)

end XwordGen
